import Mathlib

/-!
Shallow embedding of the btool-go snapshot engine (chunker, object store,
snapshot catalog, snap/restore/prune commands) and proofs about it.

Bytes are modelled as `List Nat`; digests are an abstract type `δ` together
with a hash function `hash : List Nat → δ` (the source uses SHA-256 rendered
as lowercase hex; every algorithm in scope uses the digest only as a key, an
order, or a file name).  External libraries used by the source (the Rabin
chunker `github.com/aclements/go-rabin/rabin` and `encoding/json`) are
modelled as parameters constrained by their documented contracts.
-/

namespace BTool

/-- Association-list lookup; models a Go `map` read (first binding wins). -/
def alookup {α β : Type} [DecidableEq α] : List (α × β) → α → Option β
  | [], _ => none
  | (k, v) :: rest, a => if k = a then some v else alookup rest a

/-- Association-list insert-or-overwrite; models a Go `map` write. -/
def ainsert {α β : Type} [DecidableEq α] : List (α × β) → α → β → List (α × β)
  | [], k, v => [(k, v)]
  | (k₁, v₁) :: rest, k, v =>
      if k₁ = k then (k, v) :: rest else (k₁, v₁) :: ainsert rest k v

/-- Keys of an association list. -/
def akeys {α β : Type} (l : List (α × β)) : List α := l.map Prod.fst

theorem alookup_ainsert_self {α β : Type} [DecidableEq α]
    (l : List (α × β)) (k : α) (v : β) : alookup (ainsert l k v) k = some v := by
  induction l with
  | nil => simp [ainsert, alookup]
  | cons hd tl ih =>
      obtain ⟨k₁, v₁⟩ := hd
      by_cases h : k₁ = k
      · simp [ainsert, h, alookup]
      · simp [ainsert, h, alookup, ih]

theorem alookup_ainsert_ne {α β : Type} [DecidableEq α]
    (l : List (α × β)) (k a : α) (v : β) (hne : k ≠ a) :
    alookup (ainsert l k v) a = alookup l a := by
  induction l with
  | nil => simp [ainsert, alookup, hne]
  | cons hd tl ih =>
      obtain ⟨k₁, v₁⟩ := hd
      by_cases h : k₁ = k
      · subst h
        simp [ainsert, alookup, hne]
      · by_cases h₂ : k₁ = a
        · subst h₂
          simp [ainsert, h, alookup]
        · simp [ainsert, h, alookup, h₂, ih]

theorem alookup_mem {α β : Type} [DecidableEq α]
    {l : List (α × β)} {a : α} {b : β} (h : alookup l a = some b) : (a, b) ∈ l := by
  induction l with
  | nil => simp [alookup] at h
  | cons hd tl ih =>
      obtain ⟨k, v⟩ := hd
      by_cases hk : k = a
      · subst hk
        simp [alookup] at h
        simp [h]
      · simp [alookup, hk] at h
        exact List.mem_cons_of_mem _ (ih h)

theorem alookup_eq_some_of_mem {α β : Type} [DecidableEq α]
    {l : List (α × β)} {a : α} {b : β} (hnd : (akeys l).Nodup)
    (hmem : (a, b) ∈ l) : alookup l a = some b := by
  induction l with
  | nil => simp at hmem
  | cons hd tl ih =>
      obtain ⟨k, v⟩ := hd
      have hnd₂ := List.nodup_cons.mp hnd
      rcases List.mem_cons.mp hmem with h | h
      · cases h
        simp [alookup]
      · have hka : k ≠ a := by
          intro hk
          subst hk
          have hmk : k ∈ akeys tl := by
            simp only [akeys, List.mem_map]
            exact ⟨(k, b), h, rfl⟩
          exact hnd₂.1 hmk
        simp [alookup, hka]
        exact ih hnd₂.2 h

/-! ## Chunker (source: internal/btool/lib/chunker.go)

`ChunkFile` reads the whole file, runs the Rabin chunker over it, and slices
the content buffer at the lengths the chunker returns.  The Rabin library is
modelled as a function `clens` from content to the list of chunk lengths;
its contract (stated as hypotheses where needed) is that the lengths are
positive, sum to the content length, and all lengths except the final one
are at least `minChunkSize`. -/

/-- Minimum chunk size, 4 KiB (source constant `minChunkSize`). -/
def minChunkSize : Nat := 4 * 1024

/-- Average chunk size, 8 KiB (source constant `avgChunkSize`). -/
def avgChunkSize : Nat := 8 * 1024

/-- Maximum chunk size, 16 KiB (source constant `maxChunkSize`). -/
def maxChunkSize : Nat := 16 * 1024

/-- A chunk as produced by `ChunkFile`: hash and size of the data slice
(source: `types.Chunk`). -/
structure Chunk (δ : Type) where
  hash : δ
  size : Nat
  data : List Nat
deriving DecidableEq

/-- Successive slices `content[offset : offset+length]` taken at the chunk
lengths the Rabin chunker returns (the loop in `ChunkFile`). -/
def splitByLens : List Nat → List Nat → List (List Nat)
  | _, [] => []
  | content, l :: ls => content.take l :: splitByLens (content.drop l) ls

theorem splitByLens_flatten (content : List Nat) (ls : List Nat) :
    (splitByLens content ls).flatten = content.take ls.sum := by
  induction ls generalizing content with
  | nil => simp [splitByLens]
  | cons l ls ih =>
      simp only [splitByLens, List.flatten_cons, List.sum_cons]
      rw [ih, List.take_add]

/-- `ChunkFile` (source: `ChunkFile` in chunker.go), for a file whose read
succeeded with the given content.  Returns the chunk list and the total
size.  An empty file returns no chunks.  The source falls back to a single
chunk holding the whole file when the chunker loop produced no chunks,
which happens exactly when the chunker returned no lengths. -/
def ChunkFile {δ : Type} (hash : List Nat → δ) (clens : List Nat → List Nat)
    (content : List Nat) : List (Chunk δ) × Nat :=
  if content.length = 0 then ([], 0)
  else if clens content = [] then
    ([{ hash := hash content, size := content.length, data := content }], content.length)
  else
    ((splitByLens content (clens content)).map
        (fun d => { hash := hash d, size := d.length, data := d : Chunk δ }),
      ((splitByLens content (clens content)).map List.length).sum)

/-- C2: for every successfully read file, the chunk byte ranges concatenate
to exactly the file bytes and the chunk sizes sum to the returned total
length; an empty file yields zero chunks and total length 0; a non-empty
file shorter than `minChunkSize` (4 KiB) yields exactly one chunk holding
the entire file.  The hypotheses are the documented contract of the Rabin
chunker library: chunk lengths are positive, sum to the content length, and
every chunk except the last is at least `minChunkSize` long. -/
theorem chunkFile_correct {δ : Type} (hash : List Nat → δ) (clens : List Nat → List Nat)
    (Hsum : ∀ c, (clens c).sum = c.length)
    (Hpos : ∀ c, ∀ l ∈ clens c, 0 < l)
    (Hmin : ∀ c, ∀ l ∈ (clens c).dropLast, minChunkSize ≤ l)
    (content : List Nat) :
    ((ChunkFile hash clens content).1.map Chunk.data).flatten = content ∧
    ((ChunkFile hash clens content).1.map Chunk.size).sum = (ChunkFile hash clens content).2 ∧
    (content = [] → ChunkFile hash clens content = ([], 0)) ∧
    (0 < content.length → content.length < minChunkSize →
      (ChunkFile hash clens content).1 =
        [{ hash := hash content, size := content.length, data := content }]) := by
  by_cases hlen : content.length = 0
  · have hc : content = [] := List.length_eq_zero.mp hlen
    subst hc
    exact ⟨rfl, rfl, fun _ => rfl, fun h _ => by simp at h⟩
  · have hne : content ≠ [] := fun h => hlen (by simp [h])
    by_cases hnil : clens content = []
    · exfalso
      have h := Hsum content
      rw [hnil] at h
      exact hlen h.symm
    · have hck : ChunkFile hash clens content =
          ((splitByLens content (clens content)).map
              (fun d => { hash := hash d, size := d.length, data := d : Chunk δ }),
            ((splitByLens content (clens content)).map List.length).sum) := by
        simp [ChunkFile, hlen, hnil]
      refine ⟨?_, ?_, fun h => absurd h hne, ?_⟩
      · rw [hck]
        simp only [List.map_map]
        have hid : (Chunk.data ∘ fun d =>
            { hash := hash d, size := d.length, data := d : Chunk δ }) = id := rfl
        rw [hid, List.map_id, splitByLens_flatten, Hsum, List.take_length]
      · rw [hck]
        simp only [List.map_map]
        rfl
      · intro _ hshort
        rw [hck]
        cases h : clens content with
        | nil => exact absurd h hnil
        | cons l ls =>
            cases ls with
            | nil =>
                have hl : l = content.length := by
                  have hs := Hsum content
                  rw [h] at hs
                  simpa using hs
                subst hl
                simp [splitByLens, List.take_length]
            | cons l₂ ls₂ =>
                exfalso
                have hmem : l ∈ (clens content).dropLast := by
                  rw [h]
                  simp [List.dropLast]
                have h₁ : minChunkSize ≤ l := Hmin content l hmem
                have h₂ : 0 < l₂ := Hpos content l₂ (by rw [h]; simp)
                have h₃ : (clens content).sum = content.length := Hsum content
                rw [h] at h₃
                simp only [List.sum_cons] at h₃
                omega

/-- Witness for `chunkFile_correct`: a concrete chunker assigning the whole
content as a single chunk satisfies the library contract, and a concrete
4-byte file comes back as one chunk. -/
theorem chunkFile_correct_witness :
    ((ChunkFile (fun b => b) (fun c => if c.length = 0 then [] else [c.length])
        [7, 8, 9, 10]).1.map Chunk.data).flatten = [7, 8, 9, 10] ∧
    (ChunkFile (fun b => b) (fun c => if c.length = 0 then [] else [c.length])
        [7, 8, 9, 10]).1 =
      [{ hash := [7, 8, 9, 10], size := 4, data := [7, 8, 9, 10] }] := by
  have h := chunkFile_correct (fun b => b)
    (fun c => if c.length = 0 then [] else [c.length])
    (by
      intro c
      by_cases h : c.length = 0 <;> simp [h])
    (by
      intro c l hl
      by_cases h : c.length = 0 <;> simp [h] at hl
      omega)
    (by
      intro c l hl
      by_cases h : c.length = 0 <;> simp [h, List.dropLast] at hl)
    [7, 8, 9, 10]
  exact ⟨h.1, h.2.2.2 (by decide) (by decide)⟩

end BTool

namespace BTool

/-! ## Object store (source: internal/btool/lib/objectstore.go, `ObjectStore`
struct variant)

The store keeps the pack index and the pending-objects map in memory (the
index is modelled as already loaded; `loadIndex` is a lazy read of
`indexFile`) and persists packfiles plus the index file on disk.  Go maps
are modelled as association lists; a map insert is `ainsert`, a map read is
`alookup`.  `Commit` iterates the pending map in ascending key order, which
for a map (unique keys) is the same as sorting the key/value pairs by key. -/

/-- Location of one object inside a packfile (source: `types.PackIndexEntry`). -/
structure PackIndexEntry (δ : Type) where
  packHash : δ
  offset : Nat
  length : Nat
deriving DecidableEq

/-- In-memory state of an `ObjectStore` (index modelled as loaded). -/
structure ObjectStore (δ : Type) where
  packIndex : List (δ × PackIndexEntry δ)
  pendingObjects : List (δ × List Nat)
deriving DecidableEq

/-- The on-disk pieces the store touches: the packfiles directory (files
keyed by their content digest) and the `index.json` file. -/
structure RepoDisk (δ : Type) where
  packs : List (δ × List Nat)
  indexFile : Option (List (δ × PackIndexEntry δ))
deriving DecidableEq

/-- `WriteObject` (source: `ObjectStore.WriteObject`): hash the data, return
immediately if the digest is already indexed or pending, otherwise add the
object to the pending map. -/
def WriteObject {δ : Type} [DecidableEq δ] (hash : List Nat → δ)
    (s : ObjectStore δ) (data : List Nat) : δ × ObjectStore δ :=
  let h := hash data
  if (alookup s.packIndex h).isSome then (h, s)
  else if (alookup s.pendingObjects h).isSome then (h, s)
  else (h, { s with pendingObjects := s.pendingObjects ++ [(h, data)] })

/-- The pending map ordered by ascending digest (source: `sort.Strings(hashes)`
over the pending map's keys followed by map lookups). -/
def sortPending {δ : Type} [LinearOrder δ] (l : List (δ × List Nat)) :
    List (δ × List Nat) :=
  List.insertionSort (fun a b => a.1 ≤ b.1) l

/-- The packfile buffer `Commit` assembles: pending objects concatenated in
ascending digest order. -/
def commitBuffer {δ : Type} [LinearOrder δ] (pending : List (δ × List Nat)) : List Nat :=
  ((sortPending pending).map Prod.snd).flatten

/-- The index entries `Commit` builds while concatenating: each object gets
the running offset and its own length (the `PackHash` field is filled with
the new packfile digest). -/
def packEntries {δ : Type} (packHash : δ) :
    Nat → List (δ × List Nat) → List (δ × PackIndexEntry δ)
  | _, [] => []
  | off, (h, d) :: rest =>
      (h, { packHash := packHash, offset := off, length := d.length }) ::
        packEntries packHash (off + d.length) rest

/-- `Commit` (source: `ObjectStore.Commit`): nothing pending is a no-op
returning 0; otherwise concatenate the pending objects in ascending digest
order into a new packfile, write it under its own digest, merge the new
entries into the index, rewrite the index file, clear the pending map, and
return the packfile length. -/
def Commit {δ : Type} [DecidableEq δ] [LinearOrder δ] (hash : List Nat → δ)
    (s : ObjectStore δ) (disk : RepoDisk δ) : Nat × ObjectStore δ × RepoDisk δ :=
  if s.pendingObjects = [] then (0, s, disk)
  else
    let packBuffer := commitBuffer s.pendingObjects
    let packHash := hash packBuffer
    let newEntries := packEntries packHash 0 (sortPending s.pendingObjects)
    let newIndex := newEntries.foldl (fun idx p => ainsert idx p.1 p.2) s.packIndex
    (packBuffer.length,
      { packIndex := newIndex, pendingObjects := [] },
      { packs := ainsert disk.packs packHash packBuffer, indexFile := some newIndex })

/-- The byte slice `pack[offset : offset+length]`. -/
def sliceAt (pack : List Nat) (off len : Nat) : List Nat := (pack.drop off).take len

/-- `ReadObjectAsBuffer` (source: `ObjectStore.ReadObjectAsBuffer`): pending
bytes win; otherwise the index names a packfile and a positional read
returns `length` bytes from `offset` (a short read is an error). -/
def ReadObjectAsBuffer {δ : Type} [DecidableEq δ] (s : ObjectStore δ)
    (packs : List (δ × List Nat)) (h : δ) : Option (List Nat) :=
  match alookup s.pendingObjects h with
  | some d => some d
  | none =>
      match alookup s.packIndex h with
      | none => none
      | some e =>
          match alookup packs e.packHash with
          | none => none
          | some pd =>
              if e.offset + e.length ≤ pd.length then
                some (sliceAt pd e.offset e.length)
              else none

theorem alookup_append {α β : Type} [DecidableEq α] (l₁ l₂ : List (α × β)) (a : α) :
    alookup (l₁ ++ l₂) a =
      match alookup l₁ a with
      | some b => some b
      | none => alookup l₂ a := by
  induction l₁ with
  | nil => simp [alookup]
  | cons hd tl ih =>
      obtain ⟨k, v⟩ := hd
      by_cases hk : k = a
      · simp [alookup, hk]
      · simp [alookup, hk, ih]

/-- C5: `WriteObject` returns the digest of the data; if that digest is
already in the loaded index or the pending map the store is left unchanged;
and writing the same bytes twice leaves the store exactly as after the
first write (the object is recorded at most once). -/
theorem writeObject_dedup {δ : Type} [DecidableEq δ] (hash : List Nat → δ)
    (s : ObjectStore δ) (data : List Nat) :
    (WriteObject hash s data).1 = hash data ∧
    ((alookup s.packIndex (hash data)).isSome ∨
        (alookup s.pendingObjects (hash data)).isSome →
      (WriteObject hash s data).2 = s) ∧
    WriteObject hash (WriteObject hash s data).2 data = WriteObject hash s data := by
  refine ⟨?_, ?_, ?_⟩
  · by_cases h₁ : (alookup s.packIndex (hash data)).isSome
    · simp [WriteObject, h₁]
    · by_cases h₂ : (alookup s.pendingObjects (hash data)).isSome
      · simp [WriteObject, h₁, h₂]
      · simp [WriteObject, h₁, h₂]
  · intro hpre
    rcases hpre with h₁ | h₂
    · simp [WriteObject, h₁]
    · by_cases h₁ : (alookup s.packIndex (hash data)).isSome
      · simp [WriteObject, h₁]
      · simp [WriteObject, h₁, h₂]
  · by_cases h₁ : (alookup s.packIndex (hash data)).isSome
    · simp [WriteObject, h₁]
    · by_cases h₂ : (alookup s.pendingObjects (hash data)).isSome
      · simp [WriteObject, h₁, h₂]
      · have hstep : (WriteObject hash s data).2 =
            { s with pendingObjects := s.pendingObjects ++ [(hash data, data)] } := by
          simp [WriteObject, h₁, h₂]
        rw [hstep]
        have hpend :
            (alookup (s.pendingObjects ++ [(hash data, data)]) (hash data)).isSome := by
          rw [alookup_append]
          rcases hlp : alookup s.pendingObjects (hash data) with _ | d
          · simp [alookup]
          · simp
        simp only [WriteObject, h₁]
        simp only [hpend, if_true]
        simp [WriteObject, h₁, h₂]

/-- Witness for `writeObject_dedup`: a concrete store with digest 3 already
pending is left unchanged by a write of bytes hashing to 3. -/
theorem writeObject_dedup_witness :
    (WriteObject (fun _ => (3 : Nat)) ⟨[], [(3, [9])]⟩ [9]).2 =
      (⟨[], [(3, [9])]⟩ : ObjectStore Nat) :=
  (writeObject_dedup (fun _ => (3 : Nat)) ⟨[], [(3, [9])]⟩ [9]).2.1
    (Or.inr (by decide))

end BTool

namespace BTool

theorem sortPending_perm {δ : Type} [LinearOrder δ] (l : List (δ × List Nat)) :
    (sortPending l).Perm l :=
  List.perm_insertionSort _ l

theorem sortPending_sorted {δ : Type} [LinearOrder δ] (l : List (δ × List Nat)) :
    (sortPending l).Pairwise (fun a b => a.1 ≤ b.1) := by
  haveI : IsTotal (δ × List Nat) (fun a b => a.1 ≤ b.1) := ⟨fun a b => le_total a.1 b.1⟩
  haveI : IsTrans (δ × List Nat) (fun a b => a.1 ≤ b.1) :=
    ⟨fun _ _ _ hab hbc => le_trans hab hbc⟩
  exact List.sorted_insertionSort _ l

theorem sortPending_nodup_keys {δ : Type} [LinearOrder δ] {l : List (δ × List Nat)}
    (hnd : (akeys l).Nodup) : (akeys (sortPending l)).Nodup :=
  (List.Perm.nodup_iff ((sortPending_perm l).map Prod.fst)).mpr hnd

theorem sortPending_strict {δ : Type} [LinearOrder δ] (l : List (δ × List Nat))
    (hnd : (akeys l).Nodup) :
    (sortPending l).Pairwise (fun a b => a.1 < b.1) := by
  have hne : (sortPending l).Pairwise (fun a b => a.1 ≠ b.1) :=
    (List.pairwise_map).mp (sortPending_nodup_keys hnd)
  exact ((sortPending_sorted l).and hne).imp (fun h => lt_of_le_of_ne h.1 h.2)

theorem sortPending_eq_of_perm {δ : Type} [LinearOrder δ] {l₁ l₂ : List (δ × List Nat)}
    (hnd : (akeys l₁).Nodup) (hp : l₁.Perm l₂) : sortPending l₁ = sortPending l₂ := by
  haveI : IsAntisymm (δ × List Nat) (fun a b => a.1 < b.1) :=
    ⟨fun _ _ h₁ h₂ => absurd (lt_trans h₁ h₂) (lt_irrefl _)⟩
  have hnd₂ : (akeys l₂).Nodup := (List.Perm.nodup_iff (hp.map Prod.fst)).mp hnd
  exact List.eq_of_perm_of_sorted
    ((sortPending_perm l₁).trans (hp.trans (sortPending_perm l₂).symm))
    (sortPending_strict l₁ hnd) (sortPending_strict l₂ hnd₂)

theorem akeys_packEntries {δ : Type} (ph : δ) (l : List (δ × List Nat)) (off : Nat) :
    akeys (packEntries ph off l) = akeys l := by
  induction l generalizing off with
  | nil => rfl
  | cons hd tl ih =>
      obtain ⟨h, d⟩ := hd
      simp [packEntries, akeys] at ih ⊢
      exact ih _

theorem packEntries_lookup {δ : Type} [DecidableEq δ] (ph : δ)
    (l : List (δ × List Nat)) :
    (akeys l).Nodup → ∀ h d, (h, d) ∈ l → ∀ off,
    ∃ pre post, (l.map Prod.snd).flatten = pre ++ (d ++ post) ∧
      alookup (packEntries ph off l) h =
        some { packHash := ph, offset := off + pre.length, length := d.length } := by
  induction l with
  | nil =>
      intro _ h d hmem
      simp at hmem
  | cons hd rest ih =>
      obtain ⟨h₁, d₁⟩ := hd
      intro hnd h d hmem off
      have hnd₂ := List.nodup_cons.mp (show (h₁ :: akeys rest).Nodup from hnd)
      rcases List.mem_cons.mp hmem with heq | hmem₂
      · cases heq
        refine ⟨[], (rest.map Prod.snd).flatten, by simp, ?_⟩
        simp [packEntries, alookup]
      · have hne : h₁ ≠ h := by
          intro he
          subst he
          have : h₁ ∈ akeys rest := by
            simp only [akeys, List.mem_map]
            exact ⟨(h₁, d), hmem₂, rfl⟩
          exact hnd₂.1 this
        obtain ⟨pre, post, hbuf, hlook⟩ := ih hnd₂.2 h d hmem₂ (off + d₁.length)
        refine ⟨d₁ ++ pre, post, ?_, ?_⟩
        · simp [hbuf]
        · simp only [packEntries, alookup, hne, if_false]
          rw [hlook]
          simp [Nat.add_assoc]

theorem alookup_foldl_ainsert_notmem {δ β : Type} [DecidableEq δ]
    (news : List (δ × β)) (idx : List (δ × β)) (h : δ) (hnm : h ∉ akeys news) :
    alookup (news.foldl (fun i p => ainsert i p.1 p.2) idx) h = alookup idx h := by
  induction news generalizing idx with
  | nil => rfl
  | cons hd tl ih =>
      obtain ⟨k, v⟩ := hd
      simp only [akeys, List.map_cons, List.mem_cons, not_or] at hnm
      rw [List.foldl_cons]
      rw [ih _ (by simpa [akeys] using hnm.2)]
      exact alookup_ainsert_ne idx k h v (Ne.symm hnm.1)

theorem alookup_foldl_ainsert_mem {δ β : Type} [DecidableEq δ]
    (news : List (δ × β)) (idx : List (δ × β)) (hnd : (akeys news).Nodup)
    (h : δ) (e : β) (hmem : (h, e) ∈ news) :
    alookup (news.foldl (fun i p => ainsert i p.1 p.2) idx) h = some e := by
  induction news generalizing idx with
  | nil => simp at hmem
  | cons hd tl ih =>
      obtain ⟨k, v⟩ := hd
      have hnd₂ := List.nodup_cons.mp (show (k :: akeys tl).Nodup from hnd)
      rcases List.mem_cons.mp hmem with heq | hm
      · cases heq
        rw [List.foldl_cons]
        rw [alookup_foldl_ainsert_notmem tl _ h hnd₂.1]
        exact alookup_ainsert_self idx h e
      · rw [List.foldl_cons]
        exact ih _ hnd₂.2 hm

/-- C3: with nothing pending, `Commit` returns 0 and performs no disk
writes.  Otherwise it concatenates the pending objects in ascending digest
order into the new packfile (strictly sorted digests, a permutation of the
pending set), writes the packfile under its digest, assigns each pending
object a `(pack digest, offset, length)` entry in the index whose slice of
the packfile is the object, rewrites the index file, clears the pending
set, and returns the packfile's byte length.  The pack buffer — hence the
pack digest — is a pure function of the pending set's contents: any
permutation of the pending bindings yields the same buffer. -/
theorem commit_spec {δ : Type} [DecidableEq δ] [LinearOrder δ] (hash : List Nat → δ)
    (s : ObjectStore δ) (disk : RepoDisk δ) (hnd : (akeys s.pendingObjects).Nodup) :
    (s.pendingObjects = [] → Commit hash s disk = (0, s, disk)) ∧
    (s.pendingObjects ≠ [] →
      (Commit hash s disk).1 = (commitBuffer s.pendingObjects).length ∧
      (Commit hash s disk).2.1.pendingObjects = [] ∧
      (Commit hash s disk).2.2.packs =
        ainsert disk.packs (hash (commitBuffer s.pendingObjects))
          (commitBuffer s.pendingObjects) ∧
      (Commit hash s disk).2.2.indexFile = some (Commit hash s disk).2.1.packIndex ∧
      (sortPending s.pendingObjects).Pairwise (fun a b => a.1 < b.1) ∧
      (sortPending s.pendingObjects).Perm s.pendingObjects ∧
      (∀ h d, (h, d) ∈ s.pendingObjects →
        ∃ o, alookup (Commit hash s disk).2.1.packIndex h =
            some { packHash := hash (commitBuffer s.pendingObjects), offset := o,
                   length := d.length } ∧
          sliceAt (commitBuffer s.pendingObjects) o d.length = d ∧
          o + d.length ≤ (commitBuffer s.pendingObjects).length)) ∧
    (∀ t : ObjectStore δ, t.pendingObjects.Perm s.pendingObjects →
      commitBuffer t.pendingObjects = commitBuffer s.pendingObjects) := by
  refine ⟨fun he => by simp [Commit, he], fun hne => ?_, fun t hp => ?_⟩
  · have hc : Commit hash s disk =
        ((commitBuffer s.pendingObjects).length,
          { packIndex :=
              (packEntries (hash (commitBuffer s.pendingObjects)) 0
                  (sortPending s.pendingObjects)).foldl
                (fun idx p => ainsert idx p.1 p.2) s.packIndex,
            pendingObjects := [] },
          { packs := ainsert disk.packs (hash (commitBuffer s.pendingObjects))
              (commitBuffer s.pendingObjects),
            indexFile := some ((packEntries (hash (commitBuffer s.pendingObjects)) 0
                (sortPending s.pendingObjects)).foldl
              (fun idx p => ainsert idx p.1 p.2) s.packIndex) }) := by
      simp [Commit, hne]
    refine ⟨by rw [hc], by rw [hc], by rw [hc], by rw [hc],
      sortPending_strict _ hnd, sortPending_perm _, ?_⟩
    intro h d hmem
    have hmem₂ : (h, d) ∈ sortPending s.pendingObjects :=
      (sortPending_perm s.pendingObjects).mem_iff.mpr hmem
    have hnds := sortPending_nodup_keys hnd
    obtain ⟨pre, post, hbuf, hlook⟩ :=
      packEntries_lookup (hash (commitBuffer s.pendingObjects)) _ hnds h d hmem₂ 0
    refine ⟨pre.length, ?_, ?_, ?_⟩
    · rw [hc]
      have hmeme := alookup_mem hlook
      have hnde : (akeys (packEntries (hash (commitBuffer s.pendingObjects)) 0
          (sortPending s.pendingObjects))).Nodup := by
        rw [akeys_packEntries]
        exact hnds
      have hres := alookup_foldl_ainsert_mem _ s.packIndex hnde h _ hmeme
      simpa using hres
    · rw [show commitBuffer s.pendingObjects = pre ++ (d ++ post) from hbuf]
      unfold sliceAt
      rw [List.drop_left, List.take_left]
    · rw [show commitBuffer s.pendingObjects = pre ++ (d ++ post) from hbuf]
      simp only [List.length_append]
      omega
  · unfold commitBuffer
    have hndt : (akeys t.pendingObjects).Nodup :=
      (List.Perm.nodup_iff (hp.map Prod.fst)).mpr hnd
    rw [sortPending_eq_of_perm hndt hp]

/-- Witness for `commit_spec`: a concrete two-object pending set commits to
a 3-byte packfile and the disk receives exactly that packfile. -/
theorem commit_spec_witness :
    (akeys [((2 : Nat), [9]), (1, [5, 6])]).Nodup ∧
    (Commit (fun b => b.length) (⟨[], [(2, [9]), (1, [5, 6])]⟩ : ObjectStore Nat)
        ⟨[], none⟩).1 = 3 := by
  have h := commit_spec (fun b => b.length)
    (⟨[], [(2, [9]), (1, [5, 6])]⟩ : ObjectStore Nat) ⟨[], none⟩ (by decide)
  refine ⟨by decide, ?_⟩
  rw [(h.2.1 (by decide)).1]
  decide

end BTool

namespace BTool

/-! ## Index integrity and the prune sweep (source: objectstore.go `Commit`
and the sweep phase of `Prune` in prune.go, `ObjectStore` variant)

The sweep builds a new index containing exactly the live digests with their
locations copied from the current index, and the new packs directory holds
exactly the packfiles the new index references (each copied byte-for-byte
from the old directory). -/

/-- Index integrity (spec §8, invariant 8): every indexed digest resolves to
a slice of an existing packfile whose bytes hash back to the digest. -/
def IndexIntegrity {δ : Type} [DecidableEq δ] (hash : List Nat → δ)
    (idx : List (δ × PackIndexEntry δ)) (packs : List (δ × List Nat)) : Prop :=
  ∀ h e, alookup idx h = some e →
    ∃ pd, alookup packs e.packHash = some pd ∧
      e.offset + e.length ≤ pd.length ∧ hash (sliceAt pd e.offset e.length) = h

/-- The new index the prune sweep builds: each live digest found in the
current index keeps its entry (missing ones are warned about and skipped). -/
def sweepNewIndex {δ : Type} [DecidableEq δ] (live : List δ)
    (cur : List (δ × PackIndexEntry δ)) : List (δ × PackIndexEntry δ) :=
  live.foldr
    (fun h acc =>
      match alookup cur h with
      | some e => (h, e) :: acc
      | none => acc) []

/-- The pack digests referenced by the new index (`packsToKeep`). -/
def sweepPackHashes {δ : Type} [DecidableEq δ] (live : List δ)
    (cur : List (δ × PackIndexEntry δ)) : List δ :=
  (sweepNewIndex live cur).map (fun p => p.2.packHash)

/-- The packfiles surviving the sweep: exactly those referenced by the new
index, copied byte-for-byte from the old packs directory. -/
def sweepPacks {δ : Type} [DecidableEq δ] (live : List δ)
    (cur : List (δ × PackIndexEntry δ)) (packs : List (δ × List Nat)) :
    List (δ × List Nat) :=
  packs.filter (fun p => decide (p.1 ∈ sweepPackHashes live cur))

theorem sweepNewIndex_lookup {δ : Type} [DecidableEq δ] (live : List δ)
    (cur : List (δ × PackIndexEntry δ)) (h : δ) (e : PackIndexEntry δ)
    (hl : alookup (sweepNewIndex live cur) h = some e) : alookup cur h = some e := by
  induction live with
  | nil => simp [sweepNewIndex, alookup] at hl
  | cons h₁ rest ih =>
      have hstep : sweepNewIndex (h₁ :: rest) cur =
          match alookup cur h₁ with
          | some e₁ => (h₁, e₁) :: sweepNewIndex rest cur
          | none => sweepNewIndex rest cur := rfl
      rw [hstep] at hl
      cases hcur : alookup cur h₁ with
      | none =>
          rw [hcur] at hl
          exact ih hl
      | some e₁ =>
          rw [hcur] at hl
          by_cases hh : h₁ = h
          · subst hh
            simp [alookup] at hl
            rw [hcur, hl]
          · simp [alookup, hh] at hl
            exact ih hl

theorem alookup_filter_keys {δ β : Type} [DecidableEq δ] (q : δ → Bool)
    (l : List (δ × β)) (k : δ) (hq : q k = true) :
    alookup (l.filter (fun p => q p.1)) k = alookup l k := by
  induction l with
  | nil => rfl
  | cons hd tl ih =>
      obtain ⟨k₁, v⟩ := hd
      by_cases hk : k₁ = k
      · subst hk
        simp [List.filter_cons, hq, alookup]
      · cases hq₁ : q k₁ with
        | true => simp [List.filter_cons, hq₁, alookup, hk, ih]
        | false => simp [List.filter_cons, hq₁, alookup, hk, ih]

/-- C4: index integrity.  After a `Commit` whose pending objects are keyed
by their own digest (`WriteObject` guarantees this) and whose new pack name
is fresh on disk, every digest in the index resolves to a slice of an
existing packfile hashing back to the digest — newly committed objects via
the new packfile, previously indexed ones unchanged.  And for any live set,
the prune sweep preserves integrity: every retained digest keeps its old
location and its referenced packfile is retained byte-for-byte. -/
theorem index_integrity {δ : Type} [DecidableEq δ] [LinearOrder δ]
    (hash : List Nat → δ) (s : ObjectStore δ) (disk : RepoDisk δ)
    (hnd : (akeys s.pendingObjects).Nodup)
    (Hpend : ∀ h d, (h, d) ∈ s.pendingObjects → h = hash d)
    (Hold : IndexIntegrity hash s.packIndex disk.packs)
    (Hfresh : alookup disk.packs (hash (commitBuffer s.pendingObjects)) = none) :
    IndexIntegrity hash (Commit hash s disk).2.1.packIndex
      (Commit hash s disk).2.2.packs ∧
    (∀ (live : List δ) (cur : List (δ × PackIndexEntry δ)) (packs : List (δ × List Nat)),
      IndexIntegrity hash cur packs →
      IndexIntegrity hash (sweepNewIndex live cur) (sweepPacks live cur packs)) := by
  constructor
  · by_cases he : s.pendingObjects = []
    · simp only [Commit, he, if_true]
      exact Hold
    · have hcm := commit_spec hash s disk hnd
      have hparts := hcm.2.1 he
      intro h e hlook
      by_cases hmem : h ∈ akeys (Commit hash s disk).2.1.packIndex ∧
          h ∈ akeys s.pendingObjects
      · obtain ⟨d, hd⟩ : ∃ d, (h, d) ∈ s.pendingObjects := by
          have hm₂ : h ∈ s.pendingObjects.map Prod.fst := hmem.2
          obtain ⟨p, hp, hp₁⟩ := List.mem_map.mp hm₂
          subst hp₁
          exact ⟨p.2, by simpa using hp⟩
        obtain ⟨o, ho, hslice, hbound⟩ := hparts.2.2.2.2.2.2 h d hd
        rw [hlook] at ho
        cases ho
        refine ⟨commitBuffer s.pendingObjects, ?_, hbound, ?_⟩
        · rw [hparts.2.2.1]
          exact alookup_ainsert_self disk.packs _ _
        · rw [hslice]
          exact (Hpend h d hd).symm
      · have hnp : h ∉ akeys s.pendingObjects := by
          intro hin
          exact hmem ⟨by
            have := alookup_mem hlook
            simp only [akeys, List.mem_map]
            exact ⟨(h, e), this, rfl⟩, hin⟩
        have hcc : Commit hash s disk =
            ((commitBuffer s.pendingObjects).length,
              { packIndex :=
                  (packEntries (hash (commitBuffer s.pendingObjects)) 0
                      (sortPending s.pendingObjects)).foldl
                    (fun idx p => ainsert idx p.1 p.2) s.packIndex,
                pendingObjects := [] },
              { packs := ainsert disk.packs (hash (commitBuffer s.pendingObjects))
                  (commitBuffer s.pendingObjects),
                indexFile := some ((packEntries (hash (commitBuffer s.pendingObjects)) 0
                    (sortPending s.pendingObjects)).foldl
                  (fun idx p => ainsert idx p.1 p.2) s.packIndex) }) := by
          simp [Commit, he]
        have hnp₂ : h ∉ akeys (packEntries (hash (commitBuffer s.pendingObjects)) 0
            (sortPending s.pendingObjects)) := by
          rw [akeys_packEntries]
          intro hin
          exact hnp (((sortPending_perm s.pendingObjects).map Prod.fst).mem_iff.mp hin)
        rw [hcc] at hlook
        simp only at hlook
        rw [alookup_foldl_ainsert_notmem _ _ _ hnp₂] at hlook
        obtain ⟨pd, hpd, hb, hh⟩ := Hold h e hlook
        have hneq : e.packHash ≠ hash (commitBuffer s.pendingObjects) := by
          intro heq
          rw [heq, Hfresh] at hpd
          exact Option.noConfusion hpd
        refine ⟨pd, ?_, hb, hh⟩
        rw [hcc]
        simp only
        rw [alookup_ainsert_ne _ _ _ _ (Ne.symm hneq)]
        exact hpd
  · intro live cur packs Hcur h e hlook
    have hcur := sweepNewIndex_lookup live cur h e hlook
    obtain ⟨pd, hpd, hb, hh⟩ := Hcur h e hcur
    refine ⟨pd, ?_, hb, hh⟩
    have hq : decide (e.packHash ∈ sweepPackHashes live cur) = true := by
      rw [decide_eq_true_eq]
      exact List.mem_map.mpr ⟨(h, e), alookup_mem hlook, rfl⟩
    exact (alookup_filter_keys (fun x => decide (x ∈ sweepPackHashes live cur))
      packs e.packHash hq).trans hpd

/-- Witness for `index_integrity`: committing one object into a fresh
repository yields an integral index. -/
theorem index_integrity_witness :
    IndexIntegrity (fun b => b.length)
      (Commit (fun b => b.length) (⟨[], [(1, [5])]⟩ : ObjectStore Nat) ⟨[], none⟩).2.1.packIndex
      (Commit (fun b => b.length) (⟨[], [(1, [5])]⟩ : ObjectStore Nat) ⟨[], none⟩).2.2.packs :=
  (index_integrity (fun b => b.length) (⟨[], [(1, [5])]⟩ : ObjectStore Nat) ⟨[], none⟩
    (by decide)
    (by
      intro h d hd
      simp at hd
      obtain ⟨rfl, rfl⟩ := hd
      decide)
    (by
      intro h e hl
      simp [alookup] at hl)
    (by decide)).1

end BTool

namespace BTool

/-! ## Snapshot catalog (source: internal/btool/lib/snaps.go, persistent-ID
variant: `SnapDetail`, `GetSortedSnaps`, `FindSnap`)

Strings are modelled as `List Char`.  The catalog is modelled as the list of
successfully parsed snapshot manifests (ID, file-stem digest, root tree
digest); `GetSortedSnaps` sorts them by ID ascending.  Metadata fields not
used by any algorithm in scope (timestamp, message, sizes) are omitted. -/

/-- One catalog entry (source: `lib.SnapDetail`). -/
structure SnapDetail (δ : Type) where
  id : Int
  hash : List Char
  rootTreeHash : δ
deriving DecidableEq

/-- The catalog sorted by ID ascending (source: `GetSortedSnaps` sort step). -/
def sortSnaps {δ : Type} (snaps : List (SnapDetail δ)) : List (SnapDetail δ) :=
  List.insertionSort (fun a b => a.id ≤ b.id) snaps

/-- Numeric value of one ASCII digit, if the character is a digit. -/
def digitVal (c : Char) : Option Nat :=
  if '0' ≤ c ∧ c ≤ '9' then some (c.toNat - '0'.toNat) else none

/-- Accumulating base-10 parse of a digit run; fails on any non-digit. -/
def parseDigitsAux : Nat → List Char → Option Nat
  | acc, [] => some acc
  | acc, c :: rest =>
      match digitVal c with
      | some d => parseDigitsAux (acc * 10 + d) rest
      | none => none

/-- Base-10 parse of a non-empty digit run. -/
def parseDigits : List Char → Option Nat
  | [] => none
  | cs => parseDigitsAux 0 cs

/-- Largest int64 value (Go `strconv.ParseInt` with bit size 64). -/
def int64Max : Int := 2 ^ 63 - 1

/-- Smallest int64 value. -/
def int64Min : Int := -(2 ^ 63)

/-- Range check of Go `strconv.ParseInt(_, 10, 64)`. -/
def int64InRange (n : Int) : Option Int :=
  if int64Min ≤ n ∧ n ≤ int64Max then some n else none

/-- Go `strconv.ParseInt(s, 10, 64)` (also `strconv.Atoi` on 64-bit
platforms): an optional sign followed by at least one digit, and the value
must fit in an int64. -/
def parseGoIntChars (cs : List Char) : Option Int :=
  match cs with
  | [] => none
  | c :: rest =>
      if c = '+' then (parseDigits rest).bind (fun n => int64InRange (n : Int))
      else if c = '-' then (parseDigits rest).bind (fun n => int64InRange (-(n : Int)))
      else (parseDigits cs).bind (fun n => int64InRange (n : Int))

/-- Resolution failures of `FindSnap` (source error messages: "no snaps
found to search from", "ambiguous snap identifier ...", "no snap found with
ID or hash prefix ..."). -/
inductive FindErr where
  | noSnaps
  | ambiguous
  | notFound
deriving DecidableEq

instance {ε α : Type} [DecidableEq ε] [DecidableEq α] : DecidableEq (Except ε α) := by
  intro a b
  cases a with
  | error e₁ =>
      cases b with
      | error e₂ => exact decidable_of_iff (e₁ = e₂) (by simp)
      | ok v₂ => exact isFalse (by simp)
  | ok v₁ =>
      cases b with
      | error e₂ => exact isFalse (by simp)
      | ok v₂ => exact decidable_of_iff (v₁ = v₂) (by simp)

/-- The hash-prefix arm of the resolution: collect the snapshots whose
digest starts with the identifier; exactly one match resolves, several are
ambiguous, none is not-found. -/
def findByPre {δ : Type} [DecidableEq δ] (sorted : List (SnapDetail δ))
    (ident : List Char) : Except FindErr (SnapDetail δ) :=
  match sorted.filter (fun s => ident.isPrefixOf s.hash) with
  | [m] => .ok m
  | [] => .error .notFound
  | _ :: _ :: _ => .error .ambiguous

/-- `FindSnap` (source: `lib.FindSnap`): an empty catalog fails; an
identifier `strconv.ParseInt` accepts is matched by exact ID only; any
other identifier is matched as a digest prefix. -/
def FindSnap {δ : Type} [DecidableEq δ] (snaps : List (SnapDetail δ))
    (ident : List Char) : Except FindErr (SnapDetail δ) :=
  let sorted := sortSnaps snaps
  if sorted = [] then .error .noSnaps
  else
    match parseGoIntChars ident with
    | some n =>
        match sorted.find? (fun s => s.id = n) with
        | some s => .ok s
        | none => .error .notFound
    | none => findByPre sorted ident

/-- The resolution rule exactly as the claim states it: an identifier that
parses as a POSITIVE integer is matched only by exact snapshot ID, and any
other identifier — including "0" or a negative number — is matched as a
digest prefix.  This definition follows the claim's words and exists to be
compared against `FindSnap`, which follows the source. -/
def FindSnapClaimed {δ : Type} [DecidableEq δ] (snaps : List (SnapDetail δ))
    (ident : List Char) : Except FindErr (SnapDetail δ) :=
  let sorted := sortSnaps snaps
  if sorted = [] then .error .noSnaps
  else
    match parseGoIntChars ident with
    | some n =>
        if 0 < n then
          match sorted.find? (fun s => s.id = n) with
          | some s => .ok s
          | none => .error .notFound
        else findByPre sorted ident
    | none => findByPre sorted ident

/-- C7 counterexample: the claim as stated fails on the identifier "0".
"0" does not parse as a positive integer, so per the claim it should be
matched as a hex prefix — and it uniquely matches the digest "0abc" — but
the source sends every integer-parsable identifier (including "0") down the
exact-ID arm, finds no snapshot with ID 0, and fails with the
no-snap-found error. -/
theorem findSnap_claim_counterexample :
    FindSnap [⟨1, ['0', 'a', 'b', 'c'], (0 : Nat)⟩] ['0'] = .error .notFound ∧
    FindSnapClaimed [⟨1, ['0', 'a', 'b', 'c'], (0 : Nat)⟩] ['0'] =
      .ok ⟨1, ['0', 'a', 'b', 'c'], 0⟩ ∧
    FindSnap [⟨1, ['0', 'a', 'b', 'c'], (0 : Nat)⟩] ['0'] ≠
      FindSnapClaimed [⟨1, ['0', 'a', 'b', 'c'], (0 : Nat)⟩] ['0'] := by
  refine ⟨by decide, by decide, by decide⟩

/-- C7 as amended: for a non-empty catalog, an identifier that parses as a
base-10 integer (optional sign, int64 range) — positive or not — is matched
only by exact snapshot ID, failing with no-snap-found when no ID matches;
any identifier that does not parse as an integer is matched as a hex prefix
of the snapshot digests, where exactly one match succeeds, zero matches
fail with the no-snap-found error and two or more matches fail with the
ambiguous error. -/
theorem findSnap_resolution {δ : Type} [DecidableEq δ]
    (snaps : List (SnapDetail δ)) (ident : List Char) (hne : snaps ≠ []) :
    (∀ n, parseGoIntChars ident = some n →
      FindSnap snaps ident =
        match (sortSnaps snaps).find? (fun s => s.id = n) with
        | some s => .ok s
        | none => .error .notFound) ∧
    (parseGoIntChars ident = none →
      ((∀ m, (sortSnaps snaps).filter (fun s => ident.isPrefixOf s.hash) = [m] →
          FindSnap snaps ident = .ok m) ∧
        ((sortSnaps snaps).filter (fun s => ident.isPrefixOf s.hash) = [] →
          FindSnap snaps ident = .error .notFound) ∧
        (2 ≤ ((sortSnaps snaps).filter (fun s => ident.isPrefixOf s.hash)).length →
          FindSnap snaps ident = .error .ambiguous))) := by
  have hs : sortSnaps snaps ≠ [] := by
    intro h
    have hp : (sortSnaps snaps).Perm snaps := List.perm_insertionSort _ snaps
    rw [h] at hp
    exact hne hp.symm.eq_nil
  constructor
  · intro n hn
    simp only [FindSnap, if_neg hs, hn]
  · intro hn
    refine ⟨?_, ?_, ?_⟩
    · intro m hm
      simp only [FindSnap, if_neg hs, hn, findByPre, hm]
    · intro hm
      simp only [FindSnap, if_neg hs, hn, findByPre, hm]
    · intro hlen
      simp only [FindSnap, if_neg hs, hn, findByPre]
      cases hf : (sortSnaps snaps).filter (fun s => ident.isPrefixOf s.hash) with
      | nil => rw [hf] at hlen; simp at hlen
      | cons a tl =>
          cases tl with
          | nil => rw [hf] at hlen; simp at hlen
          | cons b tl₂ => rfl

/-- Witness for `findSnap_resolution`: a two-snapshot catalog resolves the
identifier "2" by exact ID and the ambiguous prefix "a" with the ambiguous
error. -/
theorem findSnap_resolution_witness :
    FindSnap [⟨1, ['a', 'b'], (0 : Nat)⟩, ⟨2, ['a', 'c'], 0⟩] ['2'] =
      .ok ⟨2, ['a', 'c'], 0⟩ ∧
    FindSnap [⟨1, ['a', 'b'], (0 : Nat)⟩, ⟨2, ['a', 'c'], 0⟩] ['a'] =
      .error .ambiguous := by
  have h₁ := (findSnap_resolution [⟨1, ['a', 'b'], (0 : Nat)⟩, ⟨2, ['a', 'c'], 0⟩]
    ['2'] (by decide)).1 2 (by decide)
  have h₂ := ((findSnap_resolution [⟨1, ['a', 'b'], (0 : Nat)⟩, ⟨2, ['a', 'c'], 0⟩]
    ['a'] (by decide)).2 (by decide)).2.2 (by decide)
  exact ⟨by rw [h₁]; decide, h₂⟩

end BTool

namespace BTool

/-! ## ID counter (source: internal/btool/lib/meta.go)

The counter file content is modelled as `Option (List Char)` (`none` when
the file does not exist).  `getNextSnapID` trims whitespace, treats an
absent or blank file as 1, parses the rest as a base-10 int64 and errors on
malformed content; `IncrementNextSnapID` re-reads and writes the decimal
rendering of the successor. -/

/-- Whitespace for the purposes of `strings.TrimSpace`. -/
def isSpaceChar (c : Char) : Bool :=
  c = ' ' ∨ c = '\t' ∨ c = '\n' ∨ c = '\r'

/-- `strings.TrimSpace` over the characters of the counter file. -/
def trimSpace (cs : List Char) : List Char :=
  ((cs.dropWhile isSpaceChar).reverse.dropWhile isSpaceChar).reverse

/-- `getNextSnapID` (source: meta.go): absent file or blank content is 1;
otherwise the trimmed content must parse as an integer. -/
def getNextSnapID (content : Option (List Char)) : Except Unit Int :=
  match content with
  | none => .ok 1
  | some cs =>
      let t := trimSpace cs
      if t = [] then .ok 1
      else
        match parseGoIntChars t with
        | some n => .ok n
        | none => .error ()

/-- ASCII digit character for one decimal digit. -/
def digitChar (d : Nat) : Char :=
  if d = 0 then '0' else if d = 1 then '1' else if d = 2 then '2'
  else if d = 3 then '3' else if d = 4 then '4' else if d = 5 then '5'
  else if d = 6 then '6' else if d = 7 then '7' else if d = 8 then '8' else '9'

/-- Decimal rendering of a natural number (`strconv.FormatInt` for
non-negative values). -/
def natToChars (n : Nat) : List Char :=
  if n = 0 then ['0'] else ((Nat.digits 10 n).reverse.map digitChar)

/-- `strconv.FormatInt(n, 10)`. -/
def formatInt (n : Int) : List Char :=
  if n < 0 then '-' :: natToChars n.natAbs else natToChars n.natAbs

/-- `IncrementNextSnapID` (source: meta.go): read the current value and
durably write its successor. -/
def IncrementNextSnapID (content : Option (List Char)) :
    Except Unit (Option (List Char)) :=
  match getNextSnapID content with
  | .error e => .error e
  | .ok n => .ok (some (formatInt (n + 1)))

/-- The ID handling of one `Snap` run (source: commands/snap.go steps 6 and
the final bump): read the next ID from the counter, write the manifest with
that ID, then bump the counter. -/
def snapIDStep (counter : Option (List Char)) : Except Unit (Int × Option (List Char)) :=
  match getNextSnapID counter with
  | .error e => .error e
  | .ok n =>
      match IncrementNextSnapID counter with
      | .error e => .error e
      | .ok c₂ => .ok (n, c₂)

theorem digitVal_digitChar (d : Nat) (hd : d < 10) : digitVal (digitChar d) = some d := by
  interval_cases d <;> decide

theorem digitChar_not_sign (d : Nat) :
    digitChar d ≠ '+' ∧ digitChar d ≠ '-' ∧ isSpaceChar (digitChar d) = false := by
  unfold digitChar
  split_ifs <;> exact ⟨by decide, by decide, by decide⟩

theorem dropWhile_eq_self_of_all {p : Char → Bool} (cs : List Char)
    (h : ∀ c ∈ cs, p c = false) : cs.dropWhile p = cs := by
  cases cs with
  | nil => rfl
  | cons c rest => simp [List.dropWhile_cons, h c (List.mem_cons_self c rest)]

theorem trimSpace_eq_self_of_all (cs : List Char)
    (h : ∀ c ∈ cs, isSpaceChar c = false) : trimSpace cs = cs := by
  unfold trimSpace
  rw [dropWhile_eq_self_of_all cs h]
  rw [dropWhile_eq_self_of_all cs.reverse (fun c hc => h c (List.mem_reverse.mp hc))]
  exact List.reverse_reverse cs

theorem parseDigitsAux_map_digitChar (ds : List Nat) (hds : ∀ d ∈ ds, d < 10)
    (acc : Nat) :
    parseDigitsAux acc (ds.map digitChar) =
      some (ds.foldl (fun a d => a * 10 + d) acc) := by
  induction ds generalizing acc with
  | nil => rfl
  | cons d rest ih =>
      simp only [List.map_cons, parseDigitsAux,
        digitVal_digitChar d (hds d (List.mem_cons_self d rest))]
      exact ih (fun x hx => hds x (List.mem_cons_of_mem d hx)) (acc * 10 + d)

theorem foldl_reverse_ofDigits (ds : List Nat) (acc : Nat) :
    ds.reverse.foldl (fun a d => a * 10 + d) acc =
      acc * 10 ^ ds.length + Nat.ofDigits 10 ds := by
  induction ds generalizing acc with
  | nil => simp
  | cons d rest ih =>
      simp only [List.reverse_cons, List.foldl_append, List.foldl_cons, List.foldl_nil,
        List.length_cons, Nat.ofDigits_cons, ih]
      ring

theorem parseGoIntChars_natToChars (k : Nat) (hk : 1 ≤ k)
    (hub : (k : Int) ≤ int64Max) :
    parseGoIntChars (natToChars k) = some (k : Int) := by
  have hk0 : k ≠ 0 := by omega
  have hds : ∀ d ∈ Nat.digits 10 k, d < 10 :=
    fun d hd => Nat.digits_lt_base (by norm_num) hd
  have hdsr : ∀ d ∈ (Nat.digits 10 k).reverse, d < 10 :=
    fun d hd => hds d (List.mem_reverse.mp hd)
  have hnt : natToChars k = (Nat.digits 10 k).reverse.map digitChar := by
    simp [natToChars, hk0]
  have hnnil : Nat.digits 10 k ≠ [] := Nat.digits_ne_nil_iff_ne_zero.mpr hk0
  have hparse : parseDigits ((Nat.digits 10 k).reverse.map digitChar) = some k := by
    have hne : (Nat.digits 10 k).reverse.map digitChar ≠ [] := by
      simp [hnnil]
    cases hcs : (Nat.digits 10 k).reverse.map digitChar with
    | nil => exact absurd hcs hne
    | cons c rest =>
        have : parseDigits (c :: rest) = parseDigitsAux 0 (c :: rest) := rfl
        rw [this, ← hcs]
        rw [parseDigitsAux_map_digitChar _ hdsr 0]
        rw [foldl_reverse_ofDigits]
        simp [Nat.ofDigits_digits]
  rw [hnt]
  cases hcs : (Nat.digits 10 k).reverse.map digitChar with
  | nil =>
      exfalso
      have hrev : (Nat.digits 10 k).reverse = [] := by
        cases hr : (Nat.digits 10 k).reverse with
        | nil => rfl
        | cons x xs =>
            rw [hr] at hcs
            simp at hcs
      exact hnnil (List.reverse_eq_nil_iff.mp hrev)
  | cons c rest =>
      obtain ⟨d, hd, hcd⟩ : ∃ d, d ∈ (Nat.digits 10 k).reverse ∧ digitChar d = c := by
        have : c ∈ (Nat.digits 10 k).reverse.map digitChar := by
          rw [hcs]
          exact List.mem_cons_self c rest
        obtain ⟨d, hmem, hde⟩ := List.mem_map.mp this
        exact ⟨d, hmem, hde⟩
      have hsign := digitChar_not_sign d
      rw [hcs] at hparse
      simp only [parseGoIntChars]
      rw [if_neg (hcd ▸ hsign.1), if_neg (hcd ▸ hsign.2.1)]
      rw [hparse]
      have hrange : int64Min ≤ (k : Int) ∧ (k : Int) ≤ int64Max := by
        constructor
        · have h0 : (0 : Int) ≤ (k : Int) := Int.ofNat_nonneg k
          unfold int64Min
          omega
        · exact hub
      show int64InRange ((k : Nat) : Int) = some ((k : Nat) : Int)
      unfold int64InRange
      rw [if_pos hrange]

theorem getNextSnapID_formatInt (m : Int) (hm : 1 ≤ m) (hub : m ≤ int64Max) :
    getNextSnapID (some (formatInt m)) = .ok m := by
  have hneg : ¬ m < 0 := by omega
  have hk : 1 ≤ m.natAbs := by omega
  have hfm : formatInt m = natToChars m.natAbs := by simp [formatInt, hneg]
  have hk0 : m.natAbs ≠ 0 := by omega
  have hnt : natToChars m.natAbs = (Nat.digits 10 m.natAbs).reverse.map digitChar := by
    simp [natToChars, hk0]
  have hall : ∀ c ∈ natToChars m.natAbs, isSpaceChar c = false := by
    intro c hc
    rw [hnt] at hc
    obtain ⟨d, _, hdc⟩ := List.mem_map.mp hc
    rw [← hdc]
    exact (digitChar_not_sign d).2.2
  have hnnil : natToChars m.natAbs ≠ [] := by
    rw [hnt]
    simp [Nat.digits_ne_nil_iff_ne_zero.mpr hk0]
  have hcast : ((m.natAbs : Nat) : Int) = m := Int.natAbs_of_nonneg (by omega)
  simp only [getNextSnapID, hfm]
  rw [trimSpace_eq_self_of_all _ hall]
  rw [if_neg hnnil]
  rw [parseGoIntChars_natToChars m.natAbs hk (by rw [hcast]; exact hub)]
  rw [hcast]

end BTool

namespace BTool

/-! ## Structured objects (source: internal/btool/types/types.go)

Tree entry types are the strings "blob" and "tree" in the source; they are
modelled as a two-value enumeration since those are the only values the
engine produces or consumes.  Entry names are an abstract linearly ordered
type `β` (the source uses file-name strings ordered by `<`).  JSON
serialisation (`encoding/json`) is modelled by encode/decode parameters
constrained, where a claim needs it, by the library contract that
unmarshalling inverts marshalling. -/

/-- The `Type` field of a tree entry ("blob" or "tree"). -/
inductive EntryType where
  | blob
  | tree
deriving DecidableEq

/-- One directory entry of a tree object (source: `types.TreeEntry`; the
`Type` field is called `etype` here). -/
structure TreeEntry (β δ : Type) where
  name : β
  hash : δ
  etype : EntryType
  mode : Nat
deriving DecidableEq

/-- A tree object (source: `types.Tree`). -/
structure Tree (β δ : Type) where
  entries : List (TreeEntry β δ)
deriving DecidableEq

/-- A chunk reference inside a file manifest (source: `types.ChunkRef`). -/
structure ChunkRef (δ : Type) where
  hash : δ
  size : Nat
deriving DecidableEq

/-- A file manifest object (source: `types.FileManifest`). -/
structure FileManifest (δ : Type) where
  chunks : List (ChunkRef δ)
  totalSize : Nat
deriving DecidableEq

/-! ## Directory trees

The directory tree a snap reads, with file contents and POSIX modes.  A
directory's entries are listed in the order `os.ReadDir` returns them —
sorted by name — which well-formedness (`WFForest`) captures as strictly
ascending entry names. -/

/-- A filesystem tree: regular files with content and mode, directories
with named entries and a mode. -/
inductive FSTree (β : Type) where
  | file (data : List Nat) (mode : Nat)
  | dir (entries : List (β × FSTree β)) (mode : Nat)

mutual

/-- Well-formed filesystem tree: every directory lists strictly
name-ascending entries (the `os.ReadDir` guarantee). -/
inductive WFTree {β : Type} [LT β] : FSTree β → Prop where
  | file (data : List Nat) (mode : Nat) : WFTree (FSTree.file data mode)
  | dir (es : List (β × FSTree β)) (mode : Nat)
      (hsort : (es.map Prod.fst).Pairwise (fun a b => a < b))
      (hsub : WFForest es) : WFTree (FSTree.dir es mode)

/-- Well-formedness of a directory entry list: each subtree is well formed. -/
inductive WFForest {β : Type} [LT β] : List (β × FSTree β) → Prop where
  | nil : WFForest []
  | cons (n : β) (t : FSTree β) (rest : List (β × FSTree β))
      (ht : WFTree t) (hrest : WFForest rest) : WFForest ((n, t) :: rest)

end

end BTool

namespace BTool

/-! ## Snap engine (source: internal/btool/commands/snap.go)

`findAllFiles` walks the tree skipping ignored paths (not descending into
ignored directories) and collects regular files; the parallel worker pool
of `processFilesConcurrently` is modelled by its single-worker schedule
(file order does not affect the resulting object graph); `buildTree`
recursively builds, sorts and stores tree objects.  Paths are lists of
entry names relative to the snap root; the ignore predicate `ign` is the
externally supplied `IsPathIgnored`. -/

mutual

/-- `findAllFiles` walk over one subtree rooted at `path` (already known to
be non-ignored): collect `(path, content)` for every regular file. -/
def walkFiles {β : Type} (ign : List β → Bool) (path : List β) :
    FSTree β → List (List β × List Nat)
  | .file data _ => [(path, data)]
  | .dir es _ => walkFilesL ign path es

/-- `findAllFiles` walk over a directory's entries in `os.ReadDir` order:
ignored entries are skipped (ignored directories are not descended into). -/
def walkFilesL {β : Type} (ign : List β → Bool) (path : List β) :
    List (β × FSTree β) → List (List β × List Nat)
  | [] => []
  | (n, t) :: rest =>
      (if ign (path ++ [n]) then [] else walkFiles ign (path ++ [n]) t) ++
        walkFilesL ign path rest

end

/-- The file manifest `processFilesConcurrently` builds for one file's
content: the chunk references in order plus the total size. -/
def manifestFor {δ : Type} (hash : List Nat → δ) (clens : List Nat → List Nat)
    (content : List Nat) : FileManifest δ :=
  { chunks := (ChunkFile hash clens content).1.map (fun ch => { hash := ch.hash, size := ch.size }),
    totalSize := (ChunkFile hash clens content).2 }

/-- The digest of a file's manifest object. -/
def manifestHashOf {δ : Type} (hash : List Nat → δ) (clens : List Nat → List Nat)
    (encManifest : FileManifest δ → List Nat) (content : List Nat) : δ :=
  hash (encManifest (manifestFor hash clens content))

/-- One worker iteration of `processFilesConcurrently`: chunk the file,
write every chunk, then write the manifest, returning its digest. -/
def processFile {δ : Type} [DecidableEq δ] (hash : List Nat → δ)
    (clens : List Nat → List Nat) (encManifest : FileManifest δ → List Nat)
    (st : ObjectStore δ) (content : List Nat) : δ × ObjectStore δ :=
  let st₂ := (ChunkFile hash clens content).1.foldl
    (fun s ch => (WriteObject hash s ch.data).2) st
  WriteObject hash st₂ (encManifest (manifestFor hash clens content))

/-- `processFilesConcurrently`, single-worker schedule: process each found
file and collect the `path → manifest digest` mapping. -/
def processFiles {β δ : Type} [DecidableEq δ] (hash : List Nat → δ)
    (clens : List Nat → List Nat) (encManifest : FileManifest δ → List Nat)
    (st : ObjectStore δ) :
    List (List β × List Nat) → List (List β × δ) × ObjectStore δ
  | [] => ([], st)
  | (p, content) :: rest =>
      let r := processFile hash clens encManifest st content
      let rr := processFiles hash clens encManifest r.2 rest
      ((p, r.1) :: rr.1, rr.2)

mutual

/-- The entry-collection loop of `buildTree`: iterate the directory's
entries in `os.ReadDir` order, skip ignored paths, recurse into
subdirectories (writing their tree objects), and look file entries up in
the manifest-digest map (failing like the source when a file is missing
from it).  Stored modes are the low 9 permission bits (`Mode().Perm()`). -/
def buildEntries {β δ : Type} [DecidableEq β] [DecidableEq δ] [LinearOrder β]
    (hash : List Nat → δ) (encTree : Tree β δ → List Nat) (ign : List β → Bool)
    (fileHashes : List (List β × δ)) (path : List β) :
    List (β × FSTree β) → ObjectStore δ → Option (List (TreeEntry β δ) × ObjectStore δ)
  | [], st => some ([], st)
  | (n, t) :: rest, st =>
      if ign (path ++ [n]) then buildEntries hash encTree ign fileHashes path rest st
      else
        match t with
        | .file _ mode =>
            match alookup fileHashes (path ++ [n]) with
            | none => none
            | some mh =>
                match buildEntries hash encTree ign fileHashes path rest st with
                | none => none
                | some (es, st₂) =>
                    some ({ name := n, hash := mh, etype := .blob, mode := mode % 512 } :: es,
                      st₂)
        | .dir sub mode =>
            match buildDir hash encTree ign fileHashes (path ++ [n]) sub st with
            | none => none
            | some (th, st₂) =>
                match buildEntries hash encTree ign fileHashes path rest st₂ with
                | none => none
                | some (es, st₃) =>
                    some ({ name := n, hash := th, etype := .tree, mode := mode % 512 } :: es,
                      st₃)
termination_by es st => (sizeOf es, 0)

/-- `buildTree` on one directory: collect its entries, sort them by name,
write the tree object and return its digest. -/
def buildDir {β δ : Type} [DecidableEq β] [DecidableEq δ] [LinearOrder β]
    (hash : List Nat → δ) (encTree : Tree β δ → List Nat) (ign : List β → Bool)
    (fileHashes : List (List β × δ)) (path : List β) :
    List (β × FSTree β) → ObjectStore δ → Option (δ × ObjectStore δ)
  | es, st =>
      match buildEntries hash encTree ign fileHashes path es st with
      | none => none
      | some (entries, st₂) =>
          let sorted := List.insertionSort (fun a b => a.name ≤ b.name) entries
          let w := WriteObject hash st₂ (encTree { entries := sorted })
          some (w.1, w.2)
termination_by es st => (sizeOf es, 1)

end

/-- `Snap` on a fresh repository (source: commands/snap.go): walk, process
the files, build the tree bottom-up, and commit.  Returns the root tree
digest and the resulting store and disk state. -/
def SnapEngine {β δ : Type} [DecidableEq β] [DecidableEq δ] [LinearOrder β] [LinearOrder δ]
    (hash : List Nat → δ) (clens : List Nat → List Nat)
    (encTree : Tree β δ → List Nat) (encManifest : FileManifest δ → List Nat)
    (ign : List β → Bool) (D : List (β × FSTree β)) :
    Option (δ × ObjectStore δ × RepoDisk δ) :=
  let files := walkFilesL ign [] D
  let pf := processFiles hash clens encManifest (⟨[], []⟩ : ObjectStore δ) files
  match buildDir hash encTree ign pf.1 [] D pf.2 with
  | none => none
  | some (rootHash, st) =>
      let c := Commit hash st ⟨[], none⟩
      some (rootHash, c.2.1, c.2.2)

/-- A fresh store opened on the repository disk state (source:
`NewObjectStore` plus the lazy `loadIndex`), reading one object. -/
def readOfDisk {δ : Type} [DecidableEq δ] (disk : RepoDisk δ) (h : δ) :
    Option (List Nat) :=
  ReadObjectAsBuffer ⟨disk.indexFile.getD [], []⟩ disk.packs h

/-! ## Restore engine (source: internal/btool/commands/restore.go)

`restoreTree` recursively recreates directories and queues one job per
file; each worker reads the manifest, reads the chunks in manifest order
and writes their concatenation with the stored mode.  The model
reconstructs the directory tree in memory; `read` is the object read
against the repository (fresh store over the disk state).  Recursion depth
is bounded by a fuel argument; any sufficiently large fuel works. -/

/-- Read all chunks of one file in manifest order and concatenate (the body
of `restoreFileWorker`). -/
def readChunks {δ : Type} (read : δ → Option (List Nat)) :
    List (ChunkRef δ) → Option (List Nat)
  | [] => some []
  | c :: rest =>
      match read c.hash with
      | none => none
      | some d => (readChunks read rest).map (fun r => d ++ r)

mutual

/-- `restoreTree` on one tree digest: read and decode the tree object, then
materialise its entries. -/
def restoreForestD {β δ : Type} (read : δ → Option (List Nat))
    (decTree : List Nat → Option (Tree β δ))
    (decManifest : List Nat → Option (FileManifest δ)) :
    Nat → δ → Option (List (β × FSTree β))
  | 0, _ => none
  | fuel + 1, th =>
      match read th with
      | none => none
      | some bs =>
          match decTree bs with
          | none => none
          | some t => restoreEntries read decTree decManifest fuel t.entries
termination_by fuel th => (fuel, 0, 0)

/-- Materialise a tree's entries: blob entries become files with the
concatenated chunk bytes and the stored mode, tree entries recurse into
directories carrying the stored mode. -/
def restoreEntries {β δ : Type} (read : δ → Option (List Nat))
    (decTree : List Nat → Option (Tree β δ))
    (decManifest : List Nat → Option (FileManifest δ)) :
    Nat → List (TreeEntry β δ) → Option (List (β × FSTree β))
  | _, [] => some []
  | fuel, e :: rest =>
      match e.etype with
      | .blob =>
          match read e.hash with
          | none => none
          | some mbs =>
              match decManifest mbs with
              | none => none
              | some m =>
                  match readChunks read m.chunks with
                  | none => none
                  | some content =>
                      match restoreEntries read decTree decManifest fuel rest with
                      | none => none
                      | some out => some ((e.name, FSTree.file content e.mode) :: out)
      | .tree =>
          match restoreForestD read decTree decManifest fuel e.hash with
          | none => none
          | some sub =>
              match restoreEntries read decTree decManifest fuel rest with
              | none => none
              | some out => some ((e.name, FSTree.dir sub e.mode) :: out)
termination_by fuel es => (fuel, 1, es.length)

end

mutual

/-- The expected restore result for one subtree: ignored paths dropped,
modes reduced to their low 9 bits, file bytes unchanged. -/
def scrubT {β : Type} (ign : List β → Bool) (path : List β) : FSTree β → FSTree β
  | .file data mode => .file data (mode % 512)
  | .dir es mode => .dir (scrubL ign path es) (mode % 512)

/-- The expected restore result for a directory entry list. -/
def scrubL {β : Type} (ign : List β → Bool) (path : List β) :
    List (β × FSTree β) → List (β × FSTree β)
  | [] => []
  | (n, t) :: rest =>
      if ign (path ++ [n]) then scrubL ign path rest
      else (n, scrubT ign (path ++ [n]) t) :: scrubL ign path rest

end

mutual

/-- The tree entries `buildTree` produces for a directory, as a pure
function of the input tree (collection order, before sorting). -/
def canonEntries {β δ : Type} [LinearOrder β] (hash : List Nat → δ)
    (clens : List Nat → List Nat) (encTree : Tree β δ → List Nat)
    (encManifest : FileManifest δ → List Nat) (ign : List β → Bool) (path : List β) :
    List (β × FSTree β) → List (TreeEntry β δ)
  | [] => []
  | (n, t) :: rest =>
      if ign (path ++ [n]) then
        canonEntries hash clens encTree encManifest ign path rest
      else
        match t with
        | .file data mode =>
            { name := n, hash := manifestHashOf hash clens encManifest data,
              etype := .blob, mode := mode % 512 } ::
              canonEntries hash clens encTree encManifest ign path rest
        | .dir sub mode =>
            { name := n, hash := canonDirHash hash clens encTree encManifest ign (path ++ [n]) sub,
              etype := .tree, mode := mode % 512 } ::
              canonEntries hash clens encTree encManifest ign path rest
termination_by es => (sizeOf es, 0)

/-- The digest of the tree object `buildTree` produces for a directory. -/
def canonDirHash {β δ : Type} [LinearOrder β] (hash : List Nat → δ)
    (clens : List Nat → List Nat) (encTree : Tree β δ → List Nat)
    (encManifest : FileManifest δ → List Nat) (ign : List β → Bool) (path : List β) :
    List (β × FSTree β) → δ
  | es =>
      let sorted := List.insertionSort (fun a b => a.name ≤ b.name)
        (canonEntries hash clens encTree encManifest ign path es)
      hash (encTree { entries := sorted })
termination_by es => (sizeOf es, 1)

end

mutual

/-- Directory-nesting depth of one subtree. -/
def depthT {β : Type} : FSTree β → Nat
  | .file _ _ => 0
  | .dir es _ => depthL es + 1

/-- Directory-nesting depth below a directory entry list. -/
def depthL {β : Type} : List (β × FSTree β) → Nat
  | [] => 0
  | (_, t) :: rest => max (depthT t) (depthL rest)

end

end BTool

namespace BTool

/-! ## Store invariants along the snap pipeline

During a snap on a fresh repository the store's index stays empty and the
pending map is keyed by each object's own digest with no duplicate keys;
every helper below preserves these facts, and pending lookups only grow. -/

/-- Pending-map invariant: unique keys, and every binding keys an object by
its own digest (what `WriteObject` maintains). -/
def Pinv {δ : Type} [DecidableEq δ] (hash : List Nat → δ) (st : ObjectStore δ) : Prop :=
  (akeys st.pendingObjects).Nodup ∧ ∀ h d, (h, d) ∈ st.pendingObjects → h = hash d

/-- Pending lookups of the first store all hold in the second. -/
def subLookup {δ : Type} [DecidableEq δ] (s₁ s₂ : ObjectStore δ) : Prop :=
  ∀ h d, alookup s₁.pendingObjects h = some d → alookup s₂.pendingObjects h = some d

/-- `read` returns every object the store has pending. -/
def GoodRead {δ : Type} [DecidableEq δ] (read : δ → Option (List Nat))
    (st : ObjectStore δ) : Prop :=
  ∀ h d, alookup st.pendingObjects h = some d → read h = some d

theorem alookup_eq_none_iff {α β : Type} [DecidableEq α]
    (l : List (α × β)) (a : α) : alookup l a = none ↔ a ∉ akeys l := by
  induction l with
  | nil => simp [alookup, akeys]
  | cons hd tl ih =>
      obtain ⟨k, v⟩ := hd
      by_cases hk : k = a
      · subst hk
        simp [alookup, akeys]
      · simp only [alookup, if_neg hk, akeys, List.map_cons, List.mem_cons]
        rw [show tl.map Prod.fst = akeys tl from rfl, ih]
        constructor
        · intro h hor
          rcases hor with h₂ | h₂
          · exact hk h₂.symm
          · exact h h₂
        · intro h
          exact fun h₂ => h (Or.inr h₂)

end BTool

namespace BTool

theorem writeObject_fst {δ : Type} [DecidableEq δ] (hash : List Nat → δ)
    (st : ObjectStore δ) (b : List Nat) : (WriteObject hash st b).1 = hash b := by
  unfold WriteObject
  by_cases h₁ : (alookup st.packIndex (hash b)).isSome
  · simp [h₁]
  · by_cases h₂ : (alookup st.pendingObjects (hash b)).isSome
    · simp [h₁, h₂]
    · simp [h₁, h₂]

theorem writeObject_packIndex {δ : Type} [DecidableEq δ] (hash : List Nat → δ)
    (st : ObjectStore δ) (b : List Nat) :
    (WriteObject hash st b).2.packIndex = st.packIndex := by
  unfold WriteObject
  by_cases h₁ : (alookup st.packIndex (hash b)).isSome
  · simp [h₁]
  · by_cases h₂ : (alookup st.pendingObjects (hash b)).isSome
    · simp [h₁, h₂]
    · simp [h₁, h₂]

theorem writeObject_mono {δ : Type} [DecidableEq δ] (hash : List Nat → δ)
    (st : ObjectStore δ) (b : List Nat) : subLookup st (WriteObject hash st b).2 := by
  intro h d hl
  unfold WriteObject
  by_cases h₁ : (alookup st.packIndex (hash b)).isSome
  · simpa [h₁] using hl
  · by_cases h₂ : (alookup st.pendingObjects (hash b)).isSome
    · simpa [h₁, h₂] using hl
    · simp only [h₁, h₂, Bool.false_eq_true, if_false]
      show alookup (st.pendingObjects ++ [(hash b, b)]) h = some d
      rw [alookup_append, hl]

theorem writeObject_pinv {δ : Type} [DecidableEq δ] (hash : List Nat → δ)
    (st : ObjectStore δ) (b : List Nat) (hP : Pinv hash st) :
    Pinv hash (WriteObject hash st b).2 := by
  unfold WriteObject
  by_cases h₁ : (alookup st.packIndex (hash b)).isSome
  · simpa [h₁] using hP
  · by_cases h₂ : (alookup st.pendingObjects (hash b)).isSome
    · simpa [h₁, h₂] using hP
    · simp only [h₁, h₂, Bool.false_eq_true, if_false]
      have hnone : alookup st.pendingObjects (hash b) = none :=
        Option.not_isSome_iff_eq_none.mp h₂
      have hnm : hash b ∉ akeys st.pendingObjects := (alookup_eq_none_iff _ _).mp hnone
      constructor
      · show (akeys (st.pendingObjects ++ [(hash b, b)])).Nodup
        have : akeys (st.pendingObjects ++ [(hash b, b)]) =
            akeys st.pendingObjects ++ [hash b] := by
          simp [akeys]
        rw [this]
        simp [List.nodup_append, hP.1, hnm]
      · intro h d hmem
        show h = hash d
        rcases List.mem_append.mp hmem with hm | hm
        · exact hP.2 h d hm
        · simp at hm
          rw [hm.1, hm.2]

theorem writeObject_lookup_self {δ : Type} [DecidableEq δ] (hash : List Nat → δ)
    (Hinj : Function.Injective hash) (st : ObjectStore δ) (b : List Nat)
    (hP : Pinv hash st) (hidx : st.packIndex = []) :
    alookup (WriteObject hash st b).2.pendingObjects (hash b) = some b := by
  unfold WriteObject
  have h₁ : ¬ (alookup st.packIndex (hash b)).isSome := by
    rw [hidx]
    simp [alookup]
  by_cases h₂ : (alookup st.pendingObjects (hash b)).isSome
  · obtain ⟨d, hd⟩ := Option.isSome_iff_exists.mp h₂
    have hmem := alookup_mem hd
    have heq : hash b = hash d := hP.2 _ _ hmem
    have hdb : d = b := Hinj heq.symm
    subst hdb
    simpa [h₁, h₂] using hd
  · simp only [h₁, h₂, Bool.false_eq_true, if_false]
    show alookup (st.pendingObjects ++ [(hash b, b)]) (hash b) = some b
    rw [alookup_append, Option.not_isSome_iff_eq_none.mp h₂]
    simp [alookup]

theorem subLookup_refl {δ : Type} [DecidableEq δ] (st : ObjectStore δ) :
    subLookup st st := fun _ _ h => h

theorem subLookup_trans {δ : Type} [DecidableEq δ] {s₁ s₂ s₃ : ObjectStore δ}
    (h₁ : subLookup s₁ s₂) (h₂ : subLookup s₂ s₃) : subLookup s₁ s₃ :=
  fun h d hl => h₂ h d (h₁ h d hl)

theorem chunkFile_wf {δ : Type} (hash : List Nat → δ) (clens : List Nat → List Nat)
    (c : List Nat) :
    ∀ ch ∈ (ChunkFile hash clens c).1, ch.hash = hash ch.data ∧ ch.size = ch.data.length := by
  intro ch hch
  unfold ChunkFile at hch
  by_cases h₁ : c.length = 0
  · simp [h₁] at hch
  · by_cases h₂ : clens c = []
    · simp [h₁, h₂] at hch
      rw [hch]
      exact ⟨rfl, rfl⟩
    · simp only [h₁, h₂, if_false] at hch
      simp only [List.mem_map] at hch
      obtain ⟨d, _, hd⟩ := hch
      rw [← hd]
      exact ⟨rfl, rfl⟩

theorem foldl_writeObject_facts {δ : Type} [DecidableEq δ] (hash : List Nat → δ)
    (Hinj : Function.Injective hash) (chunks : List (Chunk δ)) (st : ObjectStore δ)
    (hP : Pinv hash st) (hidx : st.packIndex = []) :
    Pinv hash (chunks.foldl (fun s ch => (WriteObject hash s ch.data).2) st) ∧
    (chunks.foldl (fun s ch => (WriteObject hash s ch.data).2) st).packIndex = [] ∧
    subLookup st (chunks.foldl (fun s ch => (WriteObject hash s ch.data).2) st) ∧
    ∀ ch ∈ chunks,
      alookup (chunks.foldl (fun s ch => (WriteObject hash s ch.data).2) st).pendingObjects
        (hash ch.data) = some ch.data := by
  induction chunks generalizing st with
  | nil => exact ⟨hP, hidx, subLookup_refl st, by simp⟩
  | cons ch rest ih =>
      have hP₂ := writeObject_pinv hash st ch.data hP
      have hidx₂ : (WriteObject hash st ch.data).2.packIndex = [] := by
        rw [writeObject_packIndex, hidx]
      obtain ⟨ihP, ihIdx, ihSub, ihMem⟩ := ih (WriteObject hash st ch.data).2 hP₂ hidx₂
      refine ⟨ihP, ihIdx, subLookup_trans (writeObject_mono hash st ch.data) ihSub, ?_⟩
      intro c hc
      rcases List.mem_cons.mp hc with hch | hch
      · subst hch
        exact ihSub _ _ (writeObject_lookup_self hash Hinj st c.data hP hidx)
      · exact ihMem c hch

theorem processFile_facts {δ : Type} [DecidableEq δ] (hash : List Nat → δ)
    (clens : List Nat → List Nat) (encManifest : FileManifest δ → List Nat)
    (Hinj : Function.Injective hash) (st : ObjectStore δ) (content : List Nat)
    (hP : Pinv hash st) (hidx : st.packIndex = []) :
    (processFile hash clens encManifest st content).1 =
      manifestHashOf hash clens encManifest content ∧
    Pinv hash (processFile hash clens encManifest st content).2 ∧
    (processFile hash clens encManifest st content).2.packIndex = [] ∧
    subLookup st (processFile hash clens encManifest st content).2 ∧
    alookup (processFile hash clens encManifest st content).2.pendingObjects
      (manifestHashOf hash clens encManifest content) =
      some (encManifest (manifestFor hash clens content)) ∧
    ∀ ch ∈ (ChunkFile hash clens content).1,
      alookup (processFile hash clens encManifest st content).2.pendingObjects
        (hash ch.data) = some ch.data := by
  obtain ⟨fP, fIdx, fSub, fMem⟩ :=
    foldl_writeObject_facts hash Hinj (ChunkFile hash clens content).1 st hP hidx
  unfold processFile
  refine ⟨writeObject_fst hash _ _, writeObject_pinv hash _ _ fP, ?_, ?_, ?_, ?_⟩
  · rw [writeObject_packIndex]
    exact fIdx
  · exact subLookup_trans fSub (writeObject_mono hash _ _)
  · exact writeObject_lookup_self hash Hinj _ _ fP fIdx
  · intro ch hch
    exact writeObject_mono hash _ _ _ _ (fMem ch hch)

theorem processFiles_facts {β δ : Type} [DecidableEq β] [DecidableEq δ]
    (hash : List Nat → δ) (clens : List Nat → List Nat)
    (encManifest : FileManifest δ → List Nat) (Hinj : Function.Injective hash)
    (files : List (List β × List Nat)) (st : ObjectStore δ)
    (hP : Pinv hash st) (hidx : st.packIndex = []) :
    (processFiles hash clens encManifest st files).1 =
      files.map (fun pc => (pc.1, manifestHashOf hash clens encManifest pc.2)) ∧
    Pinv hash (processFiles hash clens encManifest st files).2 ∧
    (processFiles hash clens encManifest st files).2.packIndex = [] ∧
    subLookup st (processFiles hash clens encManifest st files).2 ∧
    ∀ p c, (p, c) ∈ files →
      alookup (processFiles hash clens encManifest st files).2.pendingObjects
          (manifestHashOf hash clens encManifest c) =
        some (encManifest (manifestFor hash clens c)) ∧
      ∀ ch ∈ (ChunkFile hash clens c).1,
        alookup (processFiles hash clens encManifest st files).2.pendingObjects
          (hash ch.data) = some ch.data := by
  induction files generalizing st with
  | nil => exact ⟨rfl, hP, hidx, subLookup_refl st, by simp⟩
  | cons pc rest ih =>
      obtain ⟨p, c⟩ := pc
      obtain ⟨pfFst, pfP, pfIdx, pfSub, pfMan, pfChunks⟩ :=
        processFile_facts hash clens encManifest Hinj st c hP hidx
      obtain ⟨ihFst, ihP, ihIdx, ihSub, ihMem⟩ :=
        ih (processFile hash clens encManifest st c).2 pfP pfIdx
      refine ⟨?_, ihP, ihIdx, subLookup_trans pfSub ihSub, ?_⟩
      · show ((p, (processFile hash clens encManifest st c).1) ::
            (processFiles hash clens encManifest
              (processFile hash clens encManifest st c).2 rest).1) = _
        rw [pfFst, ihFst]
        rfl
      · intro p₂ c₂ hmem
        rcases List.mem_cons.mp hmem with hm | hm
        · obtain ⟨rfl, rfl⟩ : p₂ = p ∧ c₂ = c := by
            constructor <;> simp [Prod.ext_iff] at hm <;> tauto
          exact ⟨ihSub _ _ pfMan, fun ch hch => ihSub _ _ (pfChunks ch hch)⟩
        · exact ihMem p₂ c₂ hm

end BTool

namespace BTool

mutual

theorem walkFiles_prefixed {β : Type} (ign : List β → Bool) (path : List β)
    (t : FSTree β) : ∀ p c, (p, c) ∈ walkFiles ign path t → path <+: p := by
  cases t with
  | file data mode =>
      intro p c hm
      simp [walkFiles] at hm
      rw [hm.1]
  | dir es mode =>
      intro p c hm
      simp only [walkFiles] at hm
      obtain ⟨n, _, hpre⟩ := walkFilesL_shaped ign path es p c hm
      exact ((List.prefix_append path [n]).trans hpre)

theorem walkFilesL_shaped {β : Type} (ign : List β → Bool) (path : List β)
    (es : List (β × FSTree β)) :
    ∀ p c, (p, c) ∈ walkFilesL ign path es →
      ∃ n, n ∈ es.map Prod.fst ∧ (path ++ [n]) <+: p := by
  cases es with
  | nil =>
      intro p c hm
      simp [walkFilesL] at hm
  | cons hd rest =>
      obtain ⟨n, t⟩ := hd
      intro p c hm
      simp only [walkFilesL] at hm
      rcases List.mem_append.mp hm with hm₁ | hm₂
      · by_cases hign : ign (path ++ [n])
        · simp [hign] at hm₁
        · simp only [hign, Bool.false_eq_true, if_false] at hm₁
          exact ⟨n, by simp, walkFiles_prefixed ign (path ++ [n]) t p c hm₁⟩
      · obtain ⟨n₂, hn₂, hpre⟩ := walkFilesL_shaped ign path rest p c hm₂
        exact ⟨n₂, by simp [hn₂], hpre⟩

end

mutual

theorem walkFiles_nodup {β : Type} [LinearOrder β] (ign : List β → Bool) (path : List β)
    (t : FSTree β) (hwf : WFTree t) :
    ((walkFiles ign path t).map Prod.fst).Nodup := by
  cases t with
  | file data mode => simp [walkFiles]
  | dir es mode =>
      cases hwf with
      | dir es mode hsort hsub =>
          simp only [walkFiles]
          exact walkFilesL_nodup ign path es hsort hsub

theorem walkFilesL_nodup {β : Type} [LinearOrder β] (ign : List β → Bool) (path : List β)
    (es : List (β × FSTree β)) (hsort : (es.map Prod.fst).Pairwise (fun a b => a < b))
    (hwf : WFForest es) : ((walkFilesL ign path es).map Prod.fst).Nodup := by
  cases es with
  | nil => simp [walkFilesL]
  | cons hd rest =>
      obtain ⟨n, t⟩ := hd
      cases hwf with
      | cons n t rest ht hrest =>
          simp only [walkFilesL, List.map_append]
          rw [List.nodup_append]
          simp only [List.map_cons, List.pairwise_cons] at hsort
          refine ⟨?_, walkFilesL_nodup ign path rest hsort.2 hrest, ?_⟩
          · by_cases hign : ign (path ++ [n])
            · simp [hign]
            · simp only [hign, Bool.false_eq_true, if_false]
              exact walkFiles_nodup ign (path ++ [n]) t ht
          · intro p hp₁ hp₂
            by_cases hign : ign (path ++ [n])
            · simp [hign] at hp₁
            · simp only [hign, Bool.false_eq_true, if_false] at hp₁
              obtain ⟨⟨p₁, c₁⟩, hm₁, hpe₁⟩ := List.mem_map.mp hp₁
              obtain ⟨⟨p₂, c₂⟩, hm₂, hpe₂⟩ := List.mem_map.mp hp₂
              have hpre₁ := walkFiles_prefixed ign (path ++ [n]) t p₁ c₁ hm₁
              obtain ⟨n₂, hn₂, hpre₂⟩ := walkFilesL_shaped ign path rest p₂ c₂ hm₂
              have hne : n ≠ n₂ := fun he => by
                have := hsort.1 n₂ hn₂
                rw [he] at this
                exact lt_irrefl n₂ this
              obtain ⟨s₁, hs₁⟩ := hpre₁
              obtain ⟨s₂, hs₂⟩ := hpre₂
              apply hne
              have hpp : p₁ = p₂ := by
                simp only at hpe₁ hpe₂
                rw [hpe₁, hpe₂]
              rw [hpp] at hs₁
              rw [← hs₂] at hs₁
              have hcc : path ++ ([n] ++ s₁) = path ++ ([n₂] ++ s₂) := by
                simpa [List.append_assoc] using hs₁
              have hns : [n] ++ s₁ = [n₂] ++ s₂ := List.append_cancel_left hcc
              simpa using congrArg (fun l => l.head?) hns

end

theorem walk_fileHashes_lookup {β δ : Type} [DecidableEq β] [LinearOrder β] [DecidableEq δ]
    (hash : List Nat → δ) (clens : List Nat → List Nat)
    (encManifest : FileManifest δ → List Nat) (ign : List β → Bool)
    (es : List (β × FSTree β)) (hsort : (es.map Prod.fst).Pairwise (fun a b => a < b))
    (hwf : WFForest es) (p : List β) (c : List Nat)
    (hm : (p, c) ∈ walkFilesL ign [] es) :
    alookup ((walkFilesL ign [] es).map
        (fun pc => (pc.1, manifestHashOf hash clens encManifest pc.2))) p =
      some (manifestHashOf hash clens encManifest c) := by
  apply alookup_eq_some_of_mem
  · show (((walkFilesL ign [] es).map _).map Prod.fst).Nodup
    rw [List.map_map]
    have : (Prod.fst ∘ fun pc : List β × List Nat =>
        (pc.1, manifestHashOf hash clens encManifest pc.2)) = Prod.fst := rfl
    rw [this]
    exact walkFilesL_nodup ign [] es hsort hwf
  · exact List.mem_map.mpr ⟨(p, c), hm, rfl⟩

end BTool

namespace BTool

theorem chunkFile_concat {δ : Type} (hash : List Nat → δ) (clens : List Nat → List Nat)
    (Hsum : ∀ c, (clens c).sum = c.length) (content : List Nat) :
    (((ChunkFile hash clens content).1.map Chunk.data)).flatten = content := by
  unfold ChunkFile
  by_cases h₁ : content.length = 0
  · simp [h₁, List.length_eq_zero.mp h₁]
  · by_cases h₂ : clens content = []
    · exfalso
      have h := Hsum content
      rw [h₂] at h
      exact h₁ h.symm
    · simp only [h₁, h₂, if_false]
      simp only [List.map_map]
      have hid : (Chunk.data ∘ fun d =>
          { hash := hash d, size := d.length, data := d : Chunk δ }) = id := rfl
      rw [hid, List.map_id, splitByLens_flatten, Hsum, List.take_length]

theorem readChunks_of_chunks {δ : Type} (read : δ → Option (List Nat))
    (chunks : List (Chunk δ))
    (hre : ∀ ch ∈ chunks, read ch.hash = some ch.data) :
    readChunks read (chunks.map (fun ch => { hash := ch.hash, size := ch.size })) =
      some (chunks.map Chunk.data).flatten := by
  induction chunks with
  | nil => rfl
  | cons ch rest ih =>
      simp only [List.map_cons, readChunks]
      rw [hre ch (List.mem_cons_self ch rest)]
      rw [ih (fun c hc => hre c (List.mem_cons_of_mem ch hc))]
      simp

theorem canonEntries_names_sublist {β δ : Type} [LinearOrder β] (hash : List Nat → δ)
    (clens : List Nat → List Nat) (encTree : Tree β δ → List Nat)
    (encManifest : FileManifest δ → List Nat) (ign : List β → Bool) (path : List β)
    (es : List (β × FSTree β)) :
    ((canonEntries hash clens encTree encManifest ign path es).map TreeEntry.name).Sublist
      (es.map Prod.fst) := by
  induction es with
  | nil => simp [canonEntries]
  | cons hd rest ih =>
      obtain ⟨n, t⟩ := hd
      by_cases hign : ign (path ++ [n])
      · cases t with
        | file data mode =>
            simp only [canonEntries, hign, if_true, List.map_cons]
            exact ih.cons n
        | dir sub mode =>
            simp only [canonEntries, hign, if_true, List.map_cons]
            exact ih.cons n
      · cases t with
        | file data mode =>
            simp only [canonEntries, hign, Bool.false_eq_true, if_false, List.map_cons]
            exact ih.cons₂ n
        | dir sub mode =>
            simp only [canonEntries, hign, Bool.false_eq_true, if_false, List.map_cons]
            exact ih.cons₂ n

theorem canonEntries_sorted_id {β δ : Type} [LinearOrder β] (hash : List Nat → δ)
    (clens : List Nat → List Nat) (encTree : Tree β δ → List Nat)
    (encManifest : FileManifest δ → List Nat) (ign : List β → Bool) (path : List β)
    (es : List (β × FSTree β)) (hsort : (es.map Prod.fst).Pairwise (fun a b => a < b)) :
    List.insertionSort (fun a b => a.name ≤ b.name)
        (canonEntries hash clens encTree encManifest ign path es) =
      canonEntries hash clens encTree encManifest ign path es := by
  apply List.Sorted.insertionSort_eq
  have hsub := canonEntries_names_sublist hash clens encTree encManifest ign path es
  have hpn : ((canonEntries hash clens encTree encManifest ign path es).map
      TreeEntry.name).Pairwise (fun a b => a < b) := hsort.sublist hsub
  have hpe : (canonEntries hash clens encTree encManifest ign path es).Pairwise
      (fun a b => a.name < b.name) := (List.pairwise_map).mp hpn
  exact hpe.imp (fun h => le_of_lt h)

end BTool

namespace BTool

/-- What `buildEntries` guarantees on a well-formed subtree: it returns the
canonical entries and a store that extends the input store, keeps the
pipeline invariants, and from which (via any read covering the store's
pending objects) `restoreEntries` rebuilds exactly the scrubbed subtree. -/
def EntriesPackage {β δ : Type} [DecidableEq β] [LinearOrder β] [DecidableEq δ]
    (hash : List Nat → δ) (clens : List Nat → List Nat)
    (encTree : Tree β δ → List Nat) (encManifest : FileManifest δ → List Nat)
    (decTree : List Nat → Option (Tree β δ))
    (decManifest : List Nat → Option (FileManifest δ)) (ign : List β → Bool)
    (es : List (β × FSTree β)) (path : List β) (st : ObjectStore δ)
    (fh : List (List β × δ)) : Prop :=
  ∃ st₂, buildEntries hash encTree ign fh path es st =
      some (canonEntries hash clens encTree encManifest ign path es, st₂) ∧
    subLookup st st₂ ∧ Pinv hash st₂ ∧ st₂.packIndex = [] ∧
    ∀ read : δ → Option (List Nat), GoodRead read st₂ →
      ∀ fuel, depthL es ≤ fuel →
        restoreEntries read decTree decManifest fuel
            (canonEntries hash clens encTree encManifest ign path es) =
          some (scrubL ign path es)

/-- What `buildDir` guarantees on a well-formed directory: its tree object
digest is canonical, the tree object itself is pending, and restoring from
that digest rebuilds the scrubbed entry list. -/
def DirPackage {β δ : Type} [DecidableEq β] [LinearOrder β] [DecidableEq δ]
    (hash : List Nat → δ) (clens : List Nat → List Nat)
    (encTree : Tree β δ → List Nat) (encManifest : FileManifest δ → List Nat)
    (decTree : List Nat → Option (Tree β δ))
    (decManifest : List Nat → Option (FileManifest δ)) (ign : List β → Bool)
    (es : List (β × FSTree β)) (path : List β) (st : ObjectStore δ)
    (fh : List (List β × δ)) : Prop :=
  ∃ st₂, buildDir hash encTree ign fh path es st =
      some (canonDirHash hash clens encTree encManifest ign path es, st₂) ∧
    subLookup st st₂ ∧ Pinv hash st₂ ∧ st₂.packIndex = [] ∧
    alookup st₂.pendingObjects
        (canonDirHash hash clens encTree encManifest ign path es) =
      some (encTree { entries := canonEntries hash clens encTree encManifest ign path es }) ∧
    ∀ read : δ → Option (List Nat), GoodRead read st₂ →
      ∀ fuel, depthL es + 1 ≤ fuel →
        restoreForestD read decTree decManifest fuel
            (canonDirHash hash clens encTree encManifest ign path es) =
          some (scrubL ign path es)

theorem goodRead_of_subLookup {δ : Type} [DecidableEq δ]
    {read : δ → Option (List Nat)} {s₁ s₂ : ObjectStore δ}
    (hsub : subLookup s₁ s₂) (hgr : GoodRead read s₂) : GoodRead read s₁ :=
  fun h d hl => hgr h d (hsub h d hl)

/-- Lift the entry-level guarantee to the directory level: sort (a no-op on
the already-sorted canonical entries), write the tree object, restore by
reading it back. -/
theorem dir_lift {β δ : Type} [DecidableEq β] [LinearOrder β] [DecidableEq δ]
    (hash : List Nat → δ) (clens : List Nat → List Nat)
    (encTree : Tree β δ → List Nat) (encManifest : FileManifest δ → List Nat)
    (decTree : List Nat → Option (Tree β δ))
    (decManifest : List Nat → Option (FileManifest δ)) (ign : List β → Bool)
    (Hinj : Function.Injective hash)
    (HdecT : ∀ t, decTree (encTree t) = some t)
    (es : List (β × FSTree β)) (path : List β) (st : ObjectStore δ)
    (fh : List (List β × δ))
    (hsort : (es.map Prod.fst).Pairwise (fun a b => a < b))
    (hpack : EntriesPackage hash clens encTree encManifest decTree decManifest ign
      es path st fh) :
    DirPackage hash clens encTree encManifest decTree decManifest ign es path st fh := by
  obtain ⟨st₂, hbe, hsub, hP₂, hidx₂, hrestore⟩ := hpack
  have hid := canonEntries_sorted_id hash clens encTree encManifest ign path es hsort
  have hdh : canonDirHash hash clens encTree encManifest ign path es =
      hash (encTree { entries := canonEntries hash clens encTree encManifest ign path es }) := by
    simp only [canonDirHash, hid]
  refine ⟨(WriteObject hash st₂
    (encTree { entries := canonEntries hash clens encTree encManifest ign path es })).2,
    ?_, ?_, ?_, ?_, ?_, ?_⟩
  · simp only [buildDir, hbe, hid, hdh]
    rw [writeObject_fst]
  · exact subLookup_trans hsub (writeObject_mono hash st₂ _)
  · exact writeObject_pinv hash st₂ _ hP₂
  · rw [writeObject_packIndex]
    exact hidx₂
  · rw [hdh]
    exact writeObject_lookup_self hash Hinj st₂ _ hP₂ hidx₂
  · intro read hgr fuel hfuel
    cases fuel with
    | zero => omega
    | succ f =>
        have hread : read (canonDirHash hash clens encTree encManifest ign path es) =
            some (encTree { entries := canonEntries hash clens encTree encManifest ign path es }) := by
          apply hgr
          rw [hdh]
          exact writeObject_lookup_self hash Hinj st₂ _ hP₂ hidx₂
        simp only [restoreForestD, hread, HdecT]
        exact hrestore read (goodRead_of_subLookup (writeObject_mono hash st₂ _) hgr)
          f (by omega)

end BTool

namespace BTool

/-- Build-then-restore correctness for one directory entry list: on a
well-formed subtree, with the pipeline invariants and with every walked
file's manifest and chunks already pending, `buildEntries` produces the
canonical entries and `restoreEntries` rebuilds exactly the scrubbed
subtree from them. -/
theorem buildEntries_correct {β δ : Type} [DecidableEq β] [LinearOrder β] [DecidableEq δ]
    (hash : List Nat → δ) (clens : List Nat → List Nat)
    (encTree : Tree β δ → List Nat) (encManifest : FileManifest δ → List Nat)
    (decTree : List Nat → Option (Tree β δ))
    (decManifest : List Nat → Option (FileManifest δ)) (ign : List β → Bool)
    (Hinj : Function.Injective hash)
    (HdecT : ∀ t, decTree (encTree t) = some t)
    (HdecM : ∀ m, decManifest (encManifest m) = some m)
    (Hsum : ∀ c, (clens c).sum = c.length) :
    ∀ (es : List (β × FSTree β)) (path : List β) (st : ObjectStore δ)
      (fh : List (List β × δ)),
      WFForest es → Pinv hash st → st.packIndex = [] →
      (∀ p c, (p, c) ∈ walkFilesL ign path es →
        alookup fh p = some (manifestHashOf hash clens encManifest c)) →
      (∀ p c, (p, c) ∈ walkFilesL ign path es →
        alookup st.pendingObjects (manifestHashOf hash clens encManifest c) =
          some (encManifest (manifestFor hash clens c)) ∧
        ∀ ch ∈ (ChunkFile hash clens c).1,
          alookup st.pendingObjects (hash ch.data) = some ch.data) →
      EntriesPackage hash clens encTree encManifest decTree decManifest ign es path st fh
  | [], path, st, fh => by
      intro _ hP hidx _ _
      refine ⟨st, ?_, subLookup_refl st, hP, hidx, ?_⟩
      · simp [buildEntries, canonEntries]
      · intro read _ fuel _
        simp [canonEntries, restoreEntries, scrubL]
  | (n, t) :: rest, path, st, fh => by
      intro hwf hP hidx Hfh Hpf
      cases hwf with
      | cons n t rest ht hrest =>
      by_cases hign : ign (path ++ [n])
      · -- ignored entry: the walk, the build and the scrub all skip it
        have hwalk : walkFilesL ign path ((n, t) :: rest) =
            walkFilesL ign path rest := by
          cases t <;> simp [walkFilesL, hign]
        obtain ⟨st₂, hbe, hsub, hP₂, hidx₂, hres⟩ :=
          buildEntries_correct hash clens encTree encManifest decTree decManifest ign
            Hinj HdecT HdecM Hsum rest path st fh hrest hP hidx
            (fun p c hm => Hfh p c (by rw [hwalk]; exact hm))
            (fun p c hm => Hpf p c (by rw [hwalk]; exact hm))
        have hcanon : canonEntries hash clens encTree encManifest ign path ((n, t) :: rest) =
            canonEntries hash clens encTree encManifest ign path rest := by
          cases t <;> simp [canonEntries, hign]
        have hscrub : scrubL ign path ((n, t) :: rest) = scrubL ign path rest := by
          simp [scrubL, hign]
        have hbuild : buildEntries hash encTree ign fh path ((n, t) :: rest) st =
            buildEntries hash encTree ign fh path rest st := by
          cases t <;> simp [buildEntries, hign]
        refine ⟨st₂, ?_, hsub, hP₂, hidx₂, ?_⟩
        · rw [hbuild, hbe, hcanon]
        · intro read hgr fuel hfuel
          rw [hcanon, hscrub]
          apply hres read hgr fuel
          have : depthL ((n, t) :: rest) = max (depthT t) (depthL rest) := by
            simp [depthL]
          omega
      · cases t with
        | file data mode =>
            have hwalk : walkFilesL ign path ((n, FSTree.file data mode) :: rest) =
                (path ++ [n], data) :: walkFilesL ign path rest := by
              simp [walkFilesL, walkFiles, hign]
            have hmemf : (path ++ [n], data) ∈
                walkFilesL ign path ((n, FSTree.file data mode) :: rest) := by
              rw [hwalk]
              exact List.mem_cons_self _ _
            have hfh₀ := Hfh _ _ hmemf
            have hpf₀ := Hpf _ _ hmemf
            obtain ⟨st₂, hbe, hsub, hP₂, hidx₂, hres⟩ :=
              buildEntries_correct hash clens encTree encManifest decTree decManifest ign
                Hinj HdecT HdecM Hsum rest path st fh hrest hP hidx
                (fun p c hm => Hfh p c (by rw [hwalk]; exact List.mem_cons_of_mem _ hm))
                (fun p c hm => Hpf p c (by rw [hwalk]; exact List.mem_cons_of_mem _ hm))
            have hcanon : canonEntries hash clens encTree encManifest ign path
                ((n, FSTree.file data mode) :: rest) =
                { name := n, hash := manifestHashOf hash clens encManifest data,
                  etype := .blob, mode := mode % 512 } ::
                  canonEntries hash clens encTree encManifest ign path rest := by
              simp [canonEntries, hign]
            refine ⟨st₂, ?_, hsub, hP₂, hidx₂, ?_⟩
            · rw [hcanon]
              simp only [buildEntries, hign, Bool.false_eq_true, if_false, hfh₀, hbe]
            · intro read hgr fuel hfuel
              have hrm : read (manifestHashOf hash clens encManifest data) =
                  some (encManifest (manifestFor hash clens data)) :=
                hgr _ _ (hsub _ _ hpf₀.1)
              have hchunks : readChunks read (manifestFor hash clens data).chunks =
                  some data := by
                have hr : ∀ ch ∈ (ChunkFile hash clens data).1,
                    read ch.hash = some ch.data := by
                  intro ch hch
                  rw [(chunkFile_wf hash clens data ch hch).1]
                  exact hgr _ _ (hsub _ _ (hpf₀.2 ch hch))
                have hrc := readChunks_of_chunks read (ChunkFile hash clens data).1 hr
                rw [show (manifestFor hash clens data).chunks =
                    (ChunkFile hash clens data).1.map
                      (fun ch => { hash := ch.hash, size := ch.size }) from rfl]
                rw [hrc, chunkFile_concat hash clens Hsum data]
              have hdep : depthL rest ≤ fuel := by
                have : depthL ((n, FSTree.file data mode) :: rest) =
                    max (depthT (FSTree.file data mode : FSTree β)) (depthL rest) := by
                  simp [depthL]
                have h0 : depthT (FSTree.file data mode : FSTree β) = 0 := by
                  simp [depthT]
                omega
              have hrest := hres read hgr fuel hdep
              rw [hcanon]
              simp only [restoreEntries, hrm, HdecM, hchunks, hrest]
              have hscrub : scrubL ign path ((n, FSTree.file data mode) :: rest) =
                  (n, FSTree.file data (mode % 512)) :: scrubL ign path rest := by
                simp [scrubL, scrubT, hign]
              rw [hscrub]
        | dir sub mode =>
            cases ht with
            | dir sub mode hsortsub hsubwf =>
            have hwalk : walkFilesL ign path ((n, FSTree.dir sub mode) :: rest) =
                walkFilesL ign (path ++ [n]) sub ++ walkFilesL ign path rest := by
              simp [walkFilesL, walkFiles, hign]
            have hdir : DirPackage hash clens encTree encManifest decTree decManifest ign
                sub (path ++ [n]) st fh := by
              apply dir_lift hash clens encTree encManifest decTree decManifest ign
                Hinj HdecT sub (path ++ [n]) st fh hsortsub
              exact buildEntries_correct hash clens encTree encManifest decTree decManifest
                ign Hinj HdecT HdecM Hsum sub (path ++ [n]) st fh hsubwf hP hidx
                (fun p c hm => Hfh p c (by rw [hwalk]; exact List.mem_append_left _ hm))
                (fun p c hm => Hpf p c (by rw [hwalk]; exact List.mem_append_left _ hm))
            obtain ⟨st₂, hbd, hsub₂, hP₂, hidx₂, hlook₂, hresF⟩ := hdir
            obtain ⟨st₃, hbe, hsub₃, hP₃, hidx₃, hres⟩ :=
              buildEntries_correct hash clens encTree encManifest decTree decManifest ign
                Hinj HdecT HdecM Hsum rest path st₂ fh hrest hP₂ hidx₂
                (fun p c hm => Hfh p c (by rw [hwalk]; exact List.mem_append_right _ hm))
                (fun p c hm => by
                  have h := Hpf p c (by rw [hwalk]; exact List.mem_append_right _ hm)
                  exact ⟨hsub₂ _ _ h.1, fun ch hch => hsub₂ _ _ (h.2 ch hch)⟩)
            have hcanon : canonEntries hash clens encTree encManifest ign path
                ((n, FSTree.dir sub mode) :: rest) =
                { name := n,
                  hash := canonDirHash hash clens encTree encManifest ign (path ++ [n]) sub,
                  etype := .tree, mode := mode % 512 } ::
                  canonEntries hash clens encTree encManifest ign path rest := by
              simp [canonEntries, hign]
            refine ⟨st₃, ?_, subLookup_trans hsub₂ hsub₃, hP₃, hidx₃, ?_⟩
            · rw [hcanon]
              simp only [buildEntries, hign, Bool.false_eq_true, if_false, hbd, hbe]
            · intro read hgr fuel hfuel
              have hdepsub : depthL sub + 1 ≤ fuel := by
                have h₁ : depthL ((n, FSTree.dir sub mode) :: rest) =
                    max (depthT (FSTree.dir sub mode : FSTree β)) (depthL rest) := by
                  simp [depthL]
                have h₂ : depthT (FSTree.dir sub mode : FSTree β) = depthL sub + 1 := by
                  simp [depthT]
                omega
              have hdeprest : depthL rest ≤ fuel := by
                have h₁ : depthL ((n, FSTree.dir sub mode) :: rest) =
                    max (depthT (FSTree.dir sub mode : FSTree β)) (depthL rest) := by
                  simp [depthL]
                omega
              have hforest := hresF read (goodRead_of_subLookup hsub₃ hgr) fuel hdepsub
              have hrest := hres read hgr fuel hdeprest
              rw [hcanon]
              simp only [restoreEntries, hforest, hrest]
              have hscrub : scrubL ign path ((n, FSTree.dir sub mode) :: rest) =
                  (n, FSTree.dir (scrubL ign (path ++ [n]) sub) (mode % 512)) ::
                    scrubL ign path rest := by
                simp [scrubL, scrubT, hign]
              rw [hscrub]
termination_by es path st fh => sizeOf es

end BTool

namespace BTool

/-- After `Commit` on a fresh repository, a fresh store opened on the
resulting disk state returns every object that was pending. -/
theorem goodRead_after_commit {δ : Type} [DecidableEq δ] [LinearOrder δ]
    (hash : List Nat → δ) (st : ObjectStore δ) (hP : Pinv hash st)
    (hne : st.pendingObjects ≠ []) :
    GoodRead (readOfDisk (Commit hash st ⟨[], none⟩).2.2) st := by
  intro h d hl
  have parts := (commit_spec hash st ⟨[], none⟩ hP.1).2.1 hne
  obtain ⟨o, ho, hslice, hbound⟩ := parts.2.2.2.2.2.2 h d (alookup_mem hl)
  unfold readOfDisk ReadObjectAsBuffer
  rw [parts.2.2.2.1]
  show (match alookup [] h with
    | some d => some d
    | none =>
        match alookup (Commit hash st ⟨[], none⟩).2.1.packIndex h with
        | none => none
        | some e =>
            match alookup (Commit hash st ⟨[], none⟩).2.2.packs e.packHash with
            | none => none
            | some pd =>
                if e.offset + e.length ≤ pd.length then
                  some (sliceAt pd e.offset e.length)
                else none) = some d
  rw [show alookup ([] : List (δ × List Nat)) h = none from rfl]
  rw [ho]
  simp only
  rw [parts.2.2.1]
  rw [show ainsert ([] : List (δ × List Nat))
      (hash (commitBuffer st.pendingObjects)) (commitBuffer st.pendingObjects) =
      [(hash (commitBuffer st.pendingObjects), commitBuffer st.pendingObjects)] from rfl]
  rw [show alookup [(hash (commitBuffer st.pendingObjects), commitBuffer st.pendingObjects)]
      (hash (commitBuffer st.pendingObjects)) =
      some (commitBuffer st.pendingObjects) from by simp [alookup]]
  simp only
  rw [if_pos hbound]
  rw [hslice]

/-- C1: snap/restore round trip.  For every well-formed directory tree, a
snap on a fresh repository succeeds, and restoring the resulting snapshot's
root tree into a fresh output directory reproduces the tree exactly modulo
the ignore predicate: every regular file's byte content is reproduced
exactly and the low 9 permission bits of every file and directory entry are
preserved.  Hypotheses: the digest function is collision-free (injective),
JSON decoding inverts encoding for tree and manifest objects (the
`encoding/json` contract), and the chunker's lengths cover the file (the
Rabin library contract). -/
theorem snap_restore_roundtrip {β δ : Type} [DecidableEq β] [LinearOrder β]
    [DecidableEq δ] [LinearOrder δ]
    (hash : List Nat → δ) (clens : List Nat → List Nat)
    (encTree : Tree β δ → List Nat) (encManifest : FileManifest δ → List Nat)
    (decTree : List Nat → Option (Tree β δ))
    (decManifest : List Nat → Option (FileManifest δ)) (ign : List β → Bool)
    (Hinj : Function.Injective hash)
    (HdecT : ∀ t, decTree (encTree t) = some t)
    (HdecM : ∀ m, decManifest (encManifest m) = some m)
    (Hsum : ∀ c, (clens c).sum = c.length)
    (D : List (β × FSTree β))
    (hsort : (D.map Prod.fst).Pairwise (fun a b => a < b)) (hwf : WFForest D) :
    ∃ rootHash st disk,
      SnapEngine hash clens encTree encManifest ign D = some (rootHash, st, disk) ∧
      rootHash = canonDirHash hash clens encTree encManifest ign [] D ∧
      restoreForestD (readOfDisk disk) decTree decManifest (depthL D + 1) rootHash =
        some (scrubL ign [] D) := by
  have hP₀ : Pinv hash (⟨[], []⟩ : ObjectStore δ) := ⟨List.nodup_nil, by simp⟩
  obtain ⟨pfFst, pfP, pfIdx, _, pfMem⟩ :=
    processFiles_facts hash clens encManifest Hinj (walkFilesL ign [] D)
      (⟨[], []⟩ : ObjectStore δ) hP₀ rfl
  have Hfh : ∀ p c, (p, c) ∈ walkFilesL ign [] D →
      alookup (processFiles hash clens encManifest (⟨[], []⟩ : ObjectStore δ)
          (walkFilesL ign [] D)).1 p =
        some (manifestHashOf hash clens encManifest c) := by
    intro p c hm
    rw [pfFst]
    exact walk_fileHashes_lookup hash clens encManifest ign D hsort hwf p c hm
  have Hpf : ∀ p c, (p, c) ∈ walkFilesL ign [] D →
      alookup (processFiles hash clens encManifest (⟨[], []⟩ : ObjectStore δ)
          (walkFilesL ign [] D)).2.pendingObjects
          (manifestHashOf hash clens encManifest c) =
        some (encManifest (manifestFor hash clens c)) ∧
      ∀ ch ∈ (ChunkFile hash clens c).1,
        alookup (processFiles hash clens encManifest (⟨[], []⟩ : ObjectStore δ)
            (walkFilesL ign [] D)).2.pendingObjects (hash ch.data) = some ch.data := by
    intro p c hm
    exact pfMem p c hm
  have hdir := dir_lift hash clens encTree encManifest decTree decManifest ign Hinj HdecT
    D []
    (processFiles hash clens encManifest (⟨[], []⟩ : ObjectStore δ) (walkFilesL ign [] D)).2
    (processFiles hash clens encManifest (⟨[], []⟩ : ObjectStore δ) (walkFilesL ign [] D)).1
    hsort
    (buildEntries_correct hash clens encTree encManifest decTree decManifest ign Hinj
      HdecT HdecM Hsum D []
      (processFiles hash clens encManifest (⟨[], []⟩ : ObjectStore δ) (walkFilesL ign [] D)).2
      (processFiles hash clens encManifest (⟨[], []⟩ : ObjectStore δ) (walkFilesL ign [] D)).1
      hwf pfP pfIdx Hfh Hpf)
  obtain ⟨stF, hbd, _, hPF, _, hlookF, hresF⟩ := hdir
  have hneF : stF.pendingObjects ≠ [] := by
    intro he
    rw [show alookup stF.pendingObjects
        (canonDirHash hash clens encTree encManifest ign [] D) =
        alookup [] (canonDirHash hash clens encTree encManifest ign [] D) from by rw [he]]
      at hlookF
    simp [alookup] at hlookF
  have hgr := goodRead_after_commit hash stF hPF hneF
  refine ⟨canonDirHash hash clens encTree encManifest ign [] D,
    (Commit hash stF ⟨[], none⟩).2.1, (Commit hash stF ⟨[], none⟩).2.2, ?_, rfl, ?_⟩
  · simp only [SnapEngine, hbd]
  · exact hresF (readOfDisk (Commit hash stF ⟨[], none⟩).2.2) hgr (depthL D + 1)
      (le_refl _)

end BTool

namespace BTool

/-! ## A concrete serialisation for witnesses

A simple length-prefixed, tag-discriminated encoding of tree and manifest
objects over `δ = List Nat`, `β = Nat`, together with proofs that decoding
inverts encoding.  It instantiates the abstract codec parameters in
concrete applications of the round-trip theorem. -/

/-- Tag for an entry type. -/
def tagOfW : EntryType → Nat
  | .blob => 0
  | .tree => 1

/-- Concrete encoding of one chunk reference. -/
def encChunkRefW (c : ChunkRef (List Nat)) : List Nat :=
  c.hash.length :: (c.hash ++ [c.size])

/-- Concrete encoding of a file manifest (tag 1). -/
def encManifestW (m : FileManifest (List Nat)) : List Nat :=
  1 :: m.chunks.length :: ((m.chunks.map encChunkRefW).flatten ++ [m.totalSize])

/-- Concrete decoding of a run of chunk references. -/
def decChunkRefsW : Nat → List Nat → Option (List (ChunkRef (List Nat)) × List Nat)
  | 0, rest => some ([], rest)
  | k + 1, hlen :: rest =>
      match rest.drop hlen with
      | sz :: rest₂ =>
          (decChunkRefsW k rest₂).map
            (fun pr => ({ hash := rest.take hlen, size := sz } :: pr.1, pr.2))
      | [] => none
  | _ + 1, [] => none

/-- Concrete decoding of a file manifest. -/
def decManifestW (bs : List Nat) : Option (FileManifest (List Nat)) :=
  match bs with
  | 1 :: k :: rest =>
      match decChunkRefsW k rest with
      | some (cs, [total]) => some { chunks := cs, totalSize := total }
      | _ => none
  | _ => none

/-- Concrete encoding of one tree entry. -/
def encTreeEntryW (e : TreeEntry Nat (List Nat)) : List Nat :=
  e.name :: e.hash.length :: (e.hash ++ [tagOfW e.etype, e.mode])

/-- Concrete encoding of a tree object (tag 0). -/
def encTreeW (t : Tree Nat (List Nat)) : List Nat :=
  0 :: t.entries.length :: (t.entries.map encTreeEntryW).flatten

/-- Concrete decoding of a run of tree entries. -/
def decTreeEntriesW : Nat → List Nat → Option (List (TreeEntry Nat (List Nat)) × List Nat)
  | 0, rest => some ([], rest)
  | k + 1, nm :: hlen :: rest =>
      match rest.drop hlen with
      | tg :: mode :: rest₂ =>
          match (if tg = 0 then some EntryType.blob
            else if tg = 1 then some EntryType.tree else none) with
          | none => none
          | some ty =>
              (decTreeEntriesW k rest₂).map
                (fun pr => (TreeEntry.mk nm (rest.take hlen) ty mode :: pr.1, pr.2))
      | _ => none
  | _ + 1, _ => none

/-- Concrete decoding of a tree object. -/
def decTreeW (bs : List Nat) : Option (Tree Nat (List Nat)) :=
  match bs with
  | 0 :: k :: rest =>
      match decTreeEntriesW k rest with
      | some (es, []) => some { entries := es }
      | _ => none
  | _ => none

theorem decChunkRefsW_enc (cs : List (ChunkRef (List Nat))) (tail : List Nat) :
    decChunkRefsW cs.length ((cs.map encChunkRefW).flatten ++ tail) = some (cs, tail) := by
  induction cs generalizing tail with
  | nil => rfl
  | cons c rest ih =>
      have harg : ((c :: rest).map encChunkRefW).flatten ++ tail =
          c.hash.length :: (c.hash ++
            (c.size :: ((rest.map encChunkRefW).flatten ++ tail))) := by
        simp [encChunkRefW]
      rw [harg]
      show decChunkRefsW (rest.length + 1) _ = _
      have hdt := List.drop_left c.hash (c.size :: ((rest.map encChunkRefW).flatten ++ tail))
      have htk := List.take_left c.hash (c.size :: ((rest.map encChunkRefW).flatten ++ tail))
      simp only [decChunkRefsW, hdt, htk, ih tail]
      rfl

theorem decManifestW_enc (m : FileManifest (List Nat)) :
    decManifestW (encManifestW m) = some m := by
  show decManifestW (1 :: m.chunks.length ::
    ((m.chunks.map encChunkRefW).flatten ++ [m.totalSize])) = some m
  simp only [decManifestW]
  rw [decChunkRefsW_enc m.chunks [m.totalSize]]

theorem decTreeEntriesW_enc (es : List (TreeEntry Nat (List Nat))) (tail : List Nat) :
    decTreeEntriesW es.length ((es.map encTreeEntryW).flatten ++ tail) = some (es, tail) := by
  induction es generalizing tail with
  | nil => rfl
  | cons e rest ih =>
      have harg : ((e :: rest).map encTreeEntryW).flatten ++ tail =
          e.name :: e.hash.length :: (e.hash ++
            (tagOfW e.etype :: e.mode :: ((rest.map encTreeEntryW).flatten ++ tail))) := by
        simp [encTreeEntryW]
      rw [harg]
      show decTreeEntriesW (rest.length + 1) _ = _
      have hdt := List.drop_left e.hash
        (tagOfW e.etype :: e.mode :: ((rest.map encTreeEntryW).flatten ++ tail))
      have htk := List.take_left e.hash
        (tagOfW e.etype :: e.mode :: ((rest.map encTreeEntryW).flatten ++ tail))
      cases hty : e.etype with
      | blob =>
          rw [hty] at hdt htk
          simp only [tagOfW] at hdt htk
          have he : (TreeEntry.mk e.name e.hash EntryType.blob e.mode) = e := by
            rw [← hty]
          simp only [decTreeEntriesW, tagOfW, hdt, htk, ih tail, Option.map_some]
          simp [he]
      | tree =>
          rw [hty] at hdt htk
          simp only [tagOfW] at hdt htk
          have he : (TreeEntry.mk e.name e.hash EntryType.tree e.mode) = e := by
            rw [← hty]
          simp only [decTreeEntriesW, tagOfW, hdt, htk, ih tail, Option.map_some]
          simp [he]

theorem decTreeW_enc (t : Tree Nat (List Nat)) : decTreeW (encTreeW t) = some t := by
  show decTreeW (0 :: t.entries.length :: (t.entries.map encTreeEntryW).flatten) = some t
  simp only [decTreeW]
  rw [show (t.entries.map encTreeEntryW).flatten =
    (t.entries.map encTreeEntryW).flatten ++ [] from by simp]
  rw [decTreeEntriesW_enc t.entries []]

/-- The single-chunk chunker used by witnesses: the whole content is one
chunk; it satisfies the Rabin contract hypotheses. -/
def wholeFileLens (c : List Nat) : List Nat :=
  if c.length = 0 then [] else [c.length]

theorem wholeFileLens_sum (c : List Nat) : (wholeFileLens c).sum = c.length := by
  unfold wholeFileLens
  by_cases h : c.length = 0 <;> simp [h]

/-- Witness for `snap_restore_roundtrip`: a concrete two-entry directory
(one file, one subdirectory holding an empty file) snaps and restores to
its scrubbed self with the concrete codec and identity digests. -/
theorem snap_restore_roundtrip_witness :
    ∃ rootHash st disk,
      SnapEngine (fun b => b) wholeFileLens encTreeW encManifestW (fun _ => false)
        [(0, FSTree.file [7, 8] 420), (1, FSTree.dir [(5, FSTree.file [] 438)] 493)] =
        some (rootHash, st, disk) ∧
      rootHash = canonDirHash (fun b => b) wholeFileLens encTreeW encManifestW
        (fun _ => false) []
        [(0, FSTree.file [7, 8] 420), (1, FSTree.dir [(5, FSTree.file [] 438)] 493)] ∧
      restoreForestD (readOfDisk disk) decTreeW decManifestW
          (depthL [(0, FSTree.file [7, 8] 420),
            (1, FSTree.dir [(5, FSTree.file [] 438)] 493)] + 1) rootHash =
        some (scrubL (fun _ => false) []
          [(0, FSTree.file [7, 8] 420), (1, FSTree.dir [(5, FSTree.file [] 438)] 493)]) :=
  snap_restore_roundtrip (fun b => b) wholeFileLens encTreeW encManifestW
    decTreeW decManifestW (fun _ => false)
    (fun a b h => h) decTreeW_enc decManifestW_enc wholeFileLens_sum
    [(0, FSTree.file [7, 8] 420), (1, FSTree.dir [(5, FSTree.file [] 438)] 493)]
    (by decide)
    (WFForest.cons 0 (FSTree.file [7, 8] 420) _ (WFTree.file [7, 8] 420)
      (WFForest.cons 1 (FSTree.dir [(5, FSTree.file [] 438)] 493) []
        (WFTree.dir [(5, FSTree.file [] 438)] 493 (by decide)
          (WFForest.cons 5 (FSTree.file [] 438) [] (WFTree.file [] 438) WFForest.nil))
        WFForest.nil))

end BTool

namespace BTool

/-! ## Prune model (source: internal/btool/commands/prune.go)

`markReachableObjects` starts from a root digest and explores: an object
whose bytes decode as a `Tree` with at least one entry recurses into the
entry hashes; otherwise bytes decoding as a `FileManifest` with at least
one chunk mark the chunk hashes as leaves; anything else is itself a leaf
chunk.  `Prune` resolves the cut-off snapshot, keeps it and everything
newer, marks live objects from the kept roots, rebuilds the index with the
live entries at their old locations, copies exactly the packfiles the new
index references, atomically swaps, and deletes the pruned snapshot
manifests.  The counter file is never touched. -/

/-- The tree probe of the mark phase: `json.Unmarshal` into a `Tree`
succeeding with a non-empty entry list. -/
def treeEntriesOf {β δ : Type} (decTree : List Nat → Option (Tree β δ))
    (bs : List Nat) : Option (List (TreeEntry β δ)) :=
  match decTree bs with
  | some t => if t.entries.isEmpty then none else some t.entries
  | none => none

/-- The manifest probe of the mark phase: `json.Unmarshal` into a
`FileManifest` succeeding with a non-empty chunk list. -/
def manifestChunksOf {δ : Type} (decManifest : List Nat → Option (FileManifest δ))
    (bs : List Nat) : Option (List (ChunkRef δ)) :=
  match decManifest bs with
  | some m => if m.chunks.isEmpty then none else some m.chunks
  | none => none

/-- The digests an object's bytes reference: entry hashes of a non-empty
tree, chunk hashes of a non-empty manifest, nothing for a chunk. -/
def probeChildren {β δ : Type} (decTree : List Nat → Option (Tree β δ))
    (decManifest : List Nat → Option (FileManifest δ)) (bs : List Nat) : List δ :=
  match treeEntriesOf decTree bs with
  | some es => es.map TreeEntry.hash
  | none =>
      match manifestChunksOf decManifest bs with
      | some cs => cs.map ChunkRef.hash
      | none => []

mutual

/-- `markReachableObjects` on one digest: skip if already visited, read the
object, recurse into tree entries, mark manifest chunks as leaves, and
treat everything else as an already-marked chunk.  Recursion depth is
bounded by a fuel argument; any sufficiently large fuel computes the full
reachable set. -/
def markReach {β δ : Type} [DecidableEq δ] (read : δ → Option (List Nat))
    (decTree : List Nat → Option (Tree β δ))
    (decManifest : List Nat → Option (FileManifest δ)) :
    Nat → δ → List δ → Option (List δ)
  | 0, _, _ => none
  | fuel + 1, h, visited =>
      if h ∈ visited then some visited
      else
        match read h with
        | none => none
        | some bs =>
            match treeEntriesOf decTree bs with
            | some es =>
                markList read decTree decManifest fuel (es.map TreeEntry.hash)
                  (h :: visited)
            | none =>
                match manifestChunksOf decManifest bs with
                | some cs => some (cs.map ChunkRef.hash ++ h :: visited)
                | none => some (h :: visited)

/-- Sequential marking of a list of digests against a shared visited set
(the loop over tree entries, and the loop over the kept snapshots'
roots). -/
def markList {β δ : Type} [DecidableEq δ] (read : δ → Option (List Nat))
    (decTree : List Nat → Option (Tree β δ))
    (decManifest : List Nat → Option (FileManifest δ)) :
    Nat → List δ → List δ → Option (List δ)
  | _, [], visited => some visited
  | 0, _ :: _, _ => none
  | fuel + 1, h :: hs, visited =>
      match markReach read decTree decManifest fuel h visited with
      | none => none
      | some v₂ => markList read decTree decManifest fuel hs v₂

end

/-- The whole repository state `Prune` touches: the loaded index, the packs
directory, the snapshot catalog and the ID counter file. -/
structure RepoState (δ : Type) where
  index : List (δ × PackIndexEntry δ)
  packs : List (δ × List Nat)
  snaps : List (SnapDetail δ)
  counter : Option (List Char)
deriving DecidableEq

/-- An object read against a repository state (fresh `ObjectStore` over the
loaded index, nothing pending). -/
def readOfRepo {δ : Type} [DecidableEq δ] (repo : RepoState δ) (h : δ) :
    Option (List Nat) :=
  ReadObjectAsBuffer ⟨repo.index, []⟩ repo.packs h

/-- The `keepFromIndex` loop of `Prune`: position of the first snapshot in
the sorted timeline whose digest equals the resolved one. -/
def keepFromIndex {δ : Type} (target : List Char) :
    List (SnapDetail δ) → Option Nat
  | [] => none
  | s :: rest =>
      if s.hash = target then some 0
      else (keepFromIndex target rest).map (fun i => i + 1)

/-- Failures of `Prune`: snapshot resolution, the internal timeline search,
a mark-phase error, or a packfile copy error. -/
inductive PruneErr where
  | find (e : FindErr)
  | internal
  | mark
  | copy
deriving DecidableEq

/-- `Prune` (source: commands/prune.go): resolve the cut-off snapshot, find
its position in the ID-sorted timeline, keep it and everything after it; a
no-op if nothing is older.  Otherwise mark the objects reachable from the
kept roots, rebuild the index with the live entries, copy exactly the
packfiles the new index references, swap them in, and delete the pruned
snapshot manifests.  The counter is returned unchanged. -/
def Prune {β δ : Type} [DecidableEq δ]
    (decTree : List Nat → Option (Tree β δ))
    (decManifest : List Nat → Option (FileManifest δ))
    (fuel : Nat) (repo : RepoState δ) (ident : List Char) :
    Except PruneErr (RepoState δ) :=
  let allSnaps := sortSnaps repo.snaps
  match FindSnap repo.snaps ident with
  | .error e => .error (.find e)
  | .ok k =>
      match keepFromIndex k.hash allSnaps with
      | none => .error .internal
      | some i =>
          let snapsToKeep := allSnaps.drop i
          let snapsToPrune := allSnaps.take i
          if snapsToPrune = [] then .ok repo
          else
            match markList (readOfRepo repo) decTree decManifest fuel
                (snapsToKeep.map SnapDetail.rootTreeHash) [] with
            | none => .error .mark
            | some live =>
                if (sweepPackHashes live repo.index).all
                    (fun p => (alookup repo.packs p).isSome) = true then
                  .ok { index := sweepNewIndex live repo.index,
                        packs := sweepPacks live repo.index repo.packs,
                        snaps := repo.snaps.filter
                          (fun s => decide (s ∉ snapsToPrune)),
                        counter := repo.counter }
                else .error .copy

/-- A digest whose object bytes (if readable) reference only digests inside
`V`. -/
def ClosedAt {β δ : Type} (read : δ → Option (List Nat))
    (decTree : List Nat → Option (Tree β δ))
    (decManifest : List Nat → Option (FileManifest δ))
    (V : List δ) (x : δ) : Prop :=
  ∀ bs, read x = some bs → ∀ c ∈ probeChildren decTree decManifest bs, c ∈ V

/-- Library contract on stored objects: the chunks a stored manifest
references hold raw bytes that probe as leaves (they decode neither as a
non-empty tree nor as a non-empty manifest). -/
def ChunkLeafContract {β δ : Type} (read : δ → Option (List Nat))
    (decTree : List Nat → Option (Tree β δ))
    (decManifest : List Nat → Option (FileManifest δ)) : Prop :=
  ∀ h bs, read h = some bs →
    ∀ cs, manifestChunksOf decManifest bs = some cs →
      ∀ c ∈ cs, ∀ cbs, read c.hash = some cbs →
        probeChildren decTree decManifest cbs = []

/-- Library contract on stored objects: bytes that decode as a manifest
with chunks do not also probe as a non-empty tree (a tree object's JSON has
no `chunks` field, a manifest's has no non-empty `entries` field). -/
def TreeCoherent {β δ : Type} (read : δ → Option (List Nat))
    (decTree : List Nat → Option (Tree β δ))
    (decManifest : List Nat → Option (FileManifest δ)) : Prop :=
  ∀ h bs m, read h = some bs → decManifest bs = some m → m.chunks ≠ [] →
    treeEntriesOf decTree bs = none

/-- Transitive reachability through stored objects, as the mark phase
walks it: from a root, follow the probed children of readable objects. -/
inductive Reach {δ : Type} (read : δ → Option (List Nat))
    (children : List Nat → List δ) : δ → δ → Prop
  | refl (root : δ) : Reach read children root root
  | step {root h c : δ} {bs : List Nat} :
      Reach read children root h → read h = some bs →
      c ∈ children bs → Reach read children root c

end BTool

namespace BTool

theorem closedAt_mono {β δ : Type} (read : δ → Option (List Nat))
    (decTree : List Nat → Option (Tree β δ))
    (decManifest : List Nat → Option (FileManifest δ))
    {V V' : List δ} {x : δ} (hsub : ∀ y ∈ V, y ∈ V')
    (hc : ClosedAt read decTree decManifest V x) :
    ClosedAt read decTree decManifest V' x :=
  fun bs hbs c hcmem => hsub c (hc bs hbs c hcmem)

theorem sweepNewIndex_mem_some {δ : Type} [DecidableEq δ] (live : List δ)
    (cur : List (δ × PackIndexEntry δ)) (h : δ) (e : PackIndexEntry δ)
    (hm : h ∈ live) (hc : alookup cur h = some e) :
    alookup (sweepNewIndex live cur) h = some e := by
  induction live with
  | nil => simp at hm
  | cons h₁ rest ih =>
      have hstep : sweepNewIndex (h₁ :: rest) cur =
          match alookup cur h₁ with
          | some e₁ => (h₁, e₁) :: sweepNewIndex rest cur
          | none => sweepNewIndex rest cur := rfl
      rw [hstep]
      by_cases hh : h₁ = h
      · subst hh
        rw [hc]
        simp [alookup]
      · have hmem : h ∈ rest := by
          rcases List.mem_cons.mp hm with he | hr
          · exact absurd he.symm hh
          · exact hr
        cases hcur : alookup cur h₁ with
        | none => exact ih hmem
        | some e₁ =>
            simp only [alookup, if_neg hh]
            exact ih hmem

theorem sweepNewIndex_none {δ : Type} [DecidableEq δ] (live : List δ)
    (cur : List (δ × PackIndexEntry δ)) (h : δ)
    (hc : alookup cur h = none) :
    alookup (sweepNewIndex live cur) h = none := by
  cases hres : alookup (sweepNewIndex live cur) h with
  | none => rfl
  | some e =>
      have := sweepNewIndex_lookup live cur h e hres
      rw [hc] at this
      exact Option.noConfusion this

theorem sweepNewIndex_mem_src {δ : Type} [DecidableEq δ] (live : List δ)
    (cur : List (δ × PackIndexEntry δ)) :
    ∀ p ∈ sweepNewIndex live cur, alookup cur p.1 = some p.2 := by
  induction live with
  | nil => intro p hp; simp [sweepNewIndex] at hp
  | cons h₁ rest ih =>
      intro p hp
      have hstep : sweepNewIndex (h₁ :: rest) cur =
          match alookup cur h₁ with
          | some e₁ => (h₁, e₁) :: sweepNewIndex rest cur
          | none => sweepNewIndex rest cur := rfl
      rw [hstep] at hp
      cases hcur : alookup cur h₁ with
      | none =>
          rw [hcur] at hp
          exact ih p hp
      | some e₁ =>
          rw [hcur] at hp
          rcases List.mem_cons.mp hp with he | hr
          · subst he
            exact hcur
          · exact ih p hr

theorem alookup_isSome_of_mem_keys {α β : Type} [DecidableEq α]
    (l : List (α × β)) (a : α) (hm : a ∈ akeys l) :
    (alookup l a).isSome = true := by
  cases hl : alookup l a with
  | some b => rfl
  | none => exact absurd hm ((alookup_eq_none_iff l a).mp hl)

/-- A fresh store with empty pending reads straight through the index. -/
theorem readNoPending {δ : Type} [DecidableEq δ]
    (idx : List (δ × PackIndexEntry δ)) (packs : List (δ × List Nat)) (h : δ) :
    ReadObjectAsBuffer ⟨idx, []⟩ packs h =
      match alookup idx h with
      | none => none
      | some e =>
          match alookup packs e.packHash with
          | none => none
          | some pd =>
              if e.offset + e.length ≤ pd.length then
                some (sliceAt pd e.offset e.length)
              else none := rfl

theorem readOfRepo_mem_keys {δ : Type} [DecidableEq δ] (repo : RepoState δ)
    (h : δ) (bs : List Nat) (hr : readOfRepo repo h = some bs) :
    h ∈ akeys repo.index := by
  unfold readOfRepo at hr
  rw [readNoPending] at hr
  cases hidx : alookup repo.index h with
  | none => rw [hidx] at hr; exact Option.noConfusion hr
  | some e =>
      have hmem := alookup_mem hidx
      simp only [akeys, List.mem_map]
      exact ⟨(h, e), hmem, rfl⟩

/-- After the sweep, reads of live digests are unchanged: the index entry
is preserved and the referenced packfile is retained byte-for-byte. -/
theorem sweep_read_preserved {δ : Type} [DecidableEq δ] (live : List δ)
    (idx : List (δ × PackIndexEntry δ)) (packs : List (δ × List Nat))
    (h : δ) (hm : h ∈ live) :
    ReadObjectAsBuffer ⟨sweepNewIndex live idx, []⟩ (sweepPacks live idx packs) h =
      ReadObjectAsBuffer ⟨idx, []⟩ packs h := by
  rw [readNoPending, readNoPending]
  cases hidx : alookup idx h with
  | none => simp [sweepNewIndex_none live idx h hidx]
  | some e =>
      have h₁ := sweepNewIndex_mem_some live idx h e hm hidx
      have hpk : e.packHash ∈ sweepPackHashes live idx := by
        have hmem : (h, e) ∈ sweepNewIndex live idx := alookup_mem h₁
        simp only [sweepPackHashes, List.mem_map]
        exact ⟨(h, e), hmem, rfl⟩
      have h₂ : alookup (sweepPacks live idx packs) e.packHash =
          alookup packs e.packHash :=
        alookup_filter_keys (fun x => decide (x ∈ sweepPackHashes live idx))
          packs e.packHash (by simpa using hpk)
      simp [h₁, h₂]

end BTool

namespace BTool

/-- Soundness of the mark phase: a successful mark run returns a superset
of the initial visited set containing everything it was asked to mark, and
every newly marked digest is closed — its object's probed children are all
marked too (stored chunks are closed by the chunk-leaf contract). -/
theorem mark_sound {β δ : Type} [DecidableEq δ] (read : δ → Option (List Nat))
    (decTree : List Nat → Option (Tree β δ))
    (decManifest : List Nat → Option (FileManifest δ))
    (hleaf : ChunkLeafContract read decTree decManifest) :
    ∀ fuel : Nat,
      (∀ h v V, markReach read decTree decManifest fuel h v = some V →
        (∀ x ∈ v, x ∈ V) ∧ h ∈ V ∧
          ∀ x ∈ V, x ∉ v → ClosedAt read decTree decManifest V x) ∧
      (∀ hs v V, markList read decTree decManifest fuel hs v = some V →
        (∀ x ∈ v, x ∈ V) ∧ (∀ x ∈ hs, x ∈ V) ∧
          ∀ x ∈ V, x ∉ v → ClosedAt read decTree decManifest V x) := by
  intro fuel
  induction fuel with
  | zero =>
      constructor
      · intro h v V hm
        simp [markReach] at hm
      · intro hs v V hm
        cases hs with
        | nil =>
            simp only [markList] at hm
            injection hm with hm
            subst hm
            exact ⟨fun x hx => hx, fun x hx => absurd hx (List.not_mem_nil x),
              fun x hx hnx => absurd hx hnx⟩
        | cons h hs => simp [markList] at hm
  | succ f ih =>
      obtain ⟨ihR, ihL⟩ := ih
      have hreach : ∀ h v V,
          markReach read decTree decManifest (f + 1) h v = some V →
          (∀ x ∈ v, x ∈ V) ∧ h ∈ V ∧
            ∀ x ∈ V, x ∉ v → ClosedAt read decTree decManifest V x := by
        intro h v V hm
        simp only [markReach] at hm
        by_cases hv : h ∈ v
        · rw [if_pos hv] at hm
          injection hm with hm
          subst hm
          exact ⟨fun x hx => hx, hv, fun x hx hnx => absurd hx hnx⟩
        · rw [if_neg hv] at hm
          cases hread : read h with
          | none => simp only [hread] at hm; exact Option.noConfusion hm
          | some bs =>
              simp only [hread] at hm
              cases hte : treeEntriesOf decTree bs with
              | some es =>
                  simp only [hte] at hm
                  obtain ⟨hsub, hall, hcl⟩ :=
                    ihL (es.map TreeEntry.hash) (h :: v) V hm
                  have hhV : h ∈ V := hsub h (List.mem_cons_self h v)
                  refine ⟨fun x hx => hsub x (List.mem_cons_of_mem h hx), hhV, ?_⟩
                  intro x hxV hxv
                  by_cases hxh : x = h
                  · subst hxh
                    intro bs' hbs' c hc
                    rw [hread] at hbs'
                    injection hbs' with hbs'
                    subst hbs'
                    have hpc : probeChildren decTree decManifest bs =
                        es.map TreeEntry.hash := by
                      simp [probeChildren, hte]
                    rw [hpc] at hc
                    exact hall c hc
                  · refine hcl x hxV ?_
                    intro hmem
                    rcases List.mem_cons.mp hmem with h₁ | h₁
                    · exact hxh h₁
                    · exact hxv h₁
              | none =>
                  simp only [hte] at hm
                  cases hmc : manifestChunksOf decManifest bs with
                  | some cs =>
                      simp only [hmc] at hm
                      injection hm with hm
                      subst hm
                      refine ⟨?_, ?_, ?_⟩
                      · intro x hx
                        exact List.mem_append.mpr
                          (Or.inr (List.mem_cons_of_mem h hx))
                      · exact List.mem_append.mpr
                          (Or.inr (List.mem_cons_self h v))
                      · intro x hxV hxv
                        rcases List.mem_append.mp hxV with hxc | hxtail
                        · intro cbs hcbs c hc
                          obtain ⟨cref, hcref, hcx⟩ := List.mem_map.mp hxc
                          have h0 : probeChildren decTree decManifest cbs = [] :=
                            hleaf h bs hread cs hmc cref hcref cbs
                              (by rw [hcx]; exact hcbs)
                          rw [h0] at hc
                          exact absurd hc (List.not_mem_nil c)
                        · rcases List.mem_cons.mp hxtail with hxh | hxv₂
                          · subst hxh
                            intro bs' hbs' c hc
                            rw [hread] at hbs'
                            injection hbs' with hbs'
                            subst hbs'
                            have hpc : probeChildren decTree decManifest bs =
                                cs.map ChunkRef.hash := by
                              simp [probeChildren, hte, hmc]
                            rw [hpc] at hc
                            exact List.mem_append.mpr (Or.inl hc)
                          · exact absurd hxv₂ hxv
                  | none =>
                      simp only [hmc] at hm
                      injection hm with hm
                      subst hm
                      refine ⟨fun x hx => List.mem_cons_of_mem h hx,
                        List.mem_cons_self h v, ?_⟩
                      intro x hxV hxv
                      rcases List.mem_cons.mp hxV with hxh | hxv₂
                      · subst hxh
                        intro bs' hbs' c hc
                        rw [hread] at hbs'
                        injection hbs' with hbs'
                        subst hbs'
                        have hpc : probeChildren decTree decManifest bs = [] := by
                          simp [probeChildren, hte, hmc]
                        rw [hpc] at hc
                        exact absurd hc (List.not_mem_nil c)
                      · exact absurd hxv₂ hxv
      refine ⟨hreach, ?_⟩
      intro hs v V hm
      cases hs with
      | nil =>
          simp only [markList] at hm
          injection hm with hm
          subst hm
          exact ⟨fun x hx => hx, fun x hx => absurd hx (List.not_mem_nil x),
            fun x hx hnx => absurd hx hnx⟩
      | cons h rest =>
          simp only [markList] at hm
          cases hmr : markReach read decTree decManifest f h v with
          | none => simp only [hmr] at hm; exact Option.noConfusion hm
          | some v₂ =>
              simp only [hmr] at hm
              obtain ⟨hs₁, hh₁, hc₁⟩ := ihR h v v₂ hmr
              obtain ⟨hs₂, hall₂, hc₂⟩ := ihL rest v₂ V hm
              refine ⟨fun x hx => hs₂ x (hs₁ x hx), ?_, ?_⟩
              · intro x hx
                rcases List.mem_cons.mp hx with hxh | hxr
                · subst hxh
                  exact hs₂ x hh₁
                · exact hall₂ x hxr
              · intro x hxV hxv
                by_cases hxv₂ : x ∈ v₂
                · exact closedAt_mono read decTree decManifest hs₂
                    (hc₁ x hxv₂ hxv)
                · exact hc₂ x hxV hxv₂

/-- Everything transitively reachable from a member of a closed set is in
the set. -/
theorem reach_mem {β δ : Type} (read : δ → Option (List Nat))
    (decTree : List Nat → Option (Tree β δ))
    (decManifest : List Nat → Option (FileManifest δ))
    (V : List δ) (hcl : ∀ x ∈ V, ClosedAt read decTree decManifest V x)
    (root : δ) (hroot : root ∈ V) :
    ∀ h, Reach read (probeChildren decTree decManifest) root h → h ∈ V := by
  intro h hr
  induction hr with
  | refl => exact hroot
  | step hpre hread hc ih => exact hcl _ ih _ hread _ hc

theorem readChunks_read_eq {δ : Type} (read₁ read₂ : δ → Option (List Nat))
    (cs : List (ChunkRef δ)) (hre : ∀ c ∈ cs, read₂ c.hash = read₁ c.hash) :
    readChunks read₂ cs = readChunks read₁ cs := by
  induction cs with
  | nil => rfl
  | cons c rest ih =>
      simp only [readChunks]
      rw [hre c (List.mem_cons_self c rest),
        ih (fun c' h' => hre c' (List.mem_cons_of_mem c h'))]

end BTool

namespace BTool

/-- Entry materialisation only reads digests reachable through the tree;
two reads agreeing on a closed set restore identical entries. -/
theorem restoreEntries_eq_aux {β δ : Type} [DecidableEq δ]
    (read₁ read₂ : δ → Option (List Nat))
    (decTree : List Nat → Option (Tree β δ))
    (decManifest : List Nat → Option (FileManifest δ))
    (V : List δ)
    (hre : ∀ h ∈ V, read₂ h = read₁ h)
    (hcl : ∀ x ∈ V, ClosedAt read₁ decTree decManifest V x)
    (hco : TreeCoherent read₁ decTree decManifest)
    (fuel : Nat)
    (hforest : ∀ root ∈ V,
      restoreForestD read₂ decTree decManifest fuel root =
        restoreForestD read₁ decTree decManifest fuel root) :
    ∀ es : List (TreeEntry β δ), (∀ e ∈ es, e.hash ∈ V) →
      restoreEntries read₂ decTree decManifest fuel es =
        restoreEntries read₁ decTree decManifest fuel es := by
  intro es
  induction es with
  | nil => intro _; simp [restoreEntries]
  | cons e rest ih =>
      intro hes
      have he : e.hash ∈ V := hes e (List.mem_cons_self e rest)
      have hrest := ih (fun e' h' => hes e' (List.mem_cons_of_mem e h'))
      obtain ⟨nm, hsh, ty, md⟩ := e
      cases ty with
      | blob =>
          simp only [restoreEntries]
          rw [hre hsh he]
          cases hr : read₁ hsh with
          | none => rfl
          | some mbs =>
              cases hmm : decManifest mbs with
              | none => simp [hmm]
              | some m =>
                  have hck : readChunks read₂ m.chunks =
                      readChunks read₁ m.chunks := by
                    by_cases hne : m.chunks = []
                    · rw [hne]
                      rfl
                    · apply readChunks_read_eq
                      intro c hc
                      apply hre
                      have hclo := hcl hsh he
                      have hteq : treeEntriesOf decTree mbs = none :=
                        hco hsh mbs m hr hmm hne
                      have hie : m.chunks.isEmpty = false := by
                        cases hE : m.chunks with
                        | nil => exact absurd hE hne
                        | cons a l => rfl
                      have hmc : manifestChunksOf decManifest mbs =
                          some m.chunks := by
                        simp [manifestChunksOf, hmm, hie]
                      have hpc : probeChildren decTree decManifest mbs =
                          m.chunks.map ChunkRef.hash := by
                        simp [probeChildren, hteq, hmc]
                      refine hclo mbs hr c.hash ?_
                      rw [hpc]
                      exact List.mem_map.mpr ⟨c, hc, rfl⟩
                  simp [hmm, hck, hrest]
      | tree =>
          simp only [restoreEntries]
          rw [hforest hsh he, hrest]

/-- Two reads agreeing on a closed set containing the root produce the same
restored forest, for every fuel. -/
theorem restoreForest_read_eq {β δ : Type} [DecidableEq δ]
    (read₁ read₂ : δ → Option (List Nat))
    (decTree : List Nat → Option (Tree β δ))
    (decManifest : List Nat → Option (FileManifest δ))
    (V : List δ)
    (hre : ∀ h ∈ V, read₂ h = read₁ h)
    (hcl : ∀ x ∈ V, ClosedAt read₁ decTree decManifest V x)
    (hco : TreeCoherent read₁ decTree decManifest) :
    ∀ fuel, ∀ root ∈ V,
      restoreForestD read₂ decTree decManifest fuel root =
        restoreForestD read₁ decTree decManifest fuel root := by
  intro fuel
  induction fuel with
  | zero =>
      intro root hroot
      simp [restoreForestD]
  | succ f ihf =>
      intro root hroot
      simp only [restoreForestD]
      rw [hre root hroot]
      cases hb : read₁ root with
      | none => rfl
      | some bs =>
          cases ht : decTree bs with
          | none => simp [ht]
          | some t =>
              have hes : ∀ e ∈ t.entries, e.hash ∈ V := by
                intro e hemem
                have hne : t.entries.isEmpty = false := by
                  cases hE : t.entries with
                  | nil => exact absurd (hE ▸ hemem) (List.not_mem_nil e)
                  | cons a l => rfl
                have hte : treeEntriesOf decTree bs = some t.entries := by
                  simp [treeEntriesOf, ht, hne]
                have hpc : probeChildren decTree decManifest bs =
                    t.entries.map TreeEntry.hash := by
                  simp [probeChildren, hte]
                refine hcl root hroot bs hb e.hash ?_
                rw [hpc]
                exact List.mem_map.mpr ⟨e, hemem, rfl⟩
              have hent := restoreEntries_eq_aux read₁ read₂ decTree decManifest
                V hre hcl hco f ihf t.entries hes
              simp [ht, hent]

end BTool

namespace BTool

/-- Decidable repository coherence check: manifests stored in the index do
not double as non-empty trees, and the chunks they reference hold raw leaf
bytes. -/
def repoCoherent {β δ : Type} [DecidableEq β] [DecidableEq δ]
    (decTree : List Nat → Option (Tree β δ))
    (decManifest : List Nat → Option (FileManifest δ))
    (repo : RepoState δ) : Bool :=
  (akeys repo.index).all (fun h =>
    match readOfRepo repo h with
    | none => true
    | some bs =>
        match decManifest bs with
        | none => true
        | some m =>
            if m.chunks.isEmpty then true
            else
              (treeEntriesOf decTree bs).isNone &&
                m.chunks.all (fun c =>
                  match readOfRepo repo c.hash with
                  | none => true
                  | some cbs =>
                      decide (probeChildren decTree decManifest cbs = [])))

/-- Decidable completeness check: every index entry's packfile exists. -/
def packsComplete {δ : Type} [DecidableEq δ] (repo : RepoState δ) : Bool :=
  repo.index.all (fun p => (alookup repo.packs p.2.packHash).isSome)

theorem repoCoherent_leaf {β δ : Type} [DecidableEq β] [DecidableEq δ]
    (decTree : List Nat → Option (Tree β δ))
    (decManifest : List Nat → Option (FileManifest δ))
    (repo : RepoState δ) (hc : repoCoherent decTree decManifest repo = true) :
    ChunkLeafContract (readOfRepo repo) decTree decManifest := by
  intro h bs hread cs hmc c hcm cbs hcread
  have hkey := readOfRepo_mem_keys repo h bs hread
  have hall := List.all_eq_true.mp hc h hkey
  simp only [hread] at hall
  cases hdm : decManifest bs with
  | none =>
      exfalso
      unfold manifestChunksOf at hmc
      simp only [hdm] at hmc
      exact Option.noConfusion hmc
  | some m =>
      unfold manifestChunksOf at hmc
      simp only [hdm] at hmc
      cases hie : m.chunks.isEmpty with
      | true =>
          exfalso
          simp [hie] at hmc
      | false =>
          simp only [hie] at hmc
          rw [if_neg (by simp)] at hmc
          injection hmc with hmc
          simp only [hdm] at hall
          rw [hie] at hall
          rw [if_neg (by simp)] at hall
          rw [Bool.and_eq_true] at hall
          have hchunk := List.all_eq_true.mp hall.2 c (by rw [hmc]; exact hcm)
          simp only [hcread] at hchunk
          exact of_decide_eq_true hchunk

theorem repoCoherent_tree {β δ : Type} [DecidableEq β] [DecidableEq δ]
    (decTree : List Nat → Option (Tree β δ))
    (decManifest : List Nat → Option (FileManifest δ))
    (repo : RepoState δ) (hc : repoCoherent decTree decManifest repo = true) :
    TreeCoherent (readOfRepo repo) decTree decManifest := by
  intro h bs m hread hdm hne
  have hkey := readOfRepo_mem_keys repo h bs hread
  have hall := List.all_eq_true.mp hc h hkey
  simp only [hread] at hall
  simp only [hdm] at hall
  have hie : m.chunks.isEmpty = false := by
    cases hE : m.chunks with
    | nil => exact absurd hE hne
    | cons a l => rfl
  rw [hie] at hall
  rw [if_neg (by simp)] at hall
  rw [Bool.and_eq_true] at hall
  exact Option.isNone_iff_eq_none.mp hall.1

theorem packsComplete_spec {δ : Type} [DecidableEq δ] (repo : RepoState δ)
    (hpc : packsComplete repo = true) (live : List δ) :
    (sweepPackHashes live repo.index).all
      (fun p => (alookup repo.packs p).isSome) = true := by
  apply List.all_eq_true.mpr
  intro ph hph
  simp only [sweepPackHashes, List.mem_map] at hph
  obtain ⟨p, hp, hpph⟩ := hph
  have hsrc := sweepNewIndex_mem_src live repo.index p hp
  have hmem := alookup_mem hsrc
  have := List.all_eq_true.mp hpc (p.1, p.2) (by
    cases p
    exact hmem)
  rw [← hpph]
  exact this

end BTool

namespace BTool

theorem keepFromIndex_spec {δ : Type} (target : List Char) :
    ∀ (l : List (SnapDetail δ)) (i : Nat), keepFromIndex target l = some i →
      ∃ s rest, l.drop i = s :: rest ∧ s.hash = target ∧
        ∀ s' ∈ l.take i, s'.hash ≠ target := by
  intro l
  induction l with
  | nil => intro i hi; simp [keepFromIndex] at hi
  | cons s₀ rest ih =>
      intro i hi
      unfold keepFromIndex at hi
      by_cases h₀ : s₀.hash = target
      · rw [if_pos h₀] at hi
        injection hi with hi
        subst hi
        exact ⟨s₀, rest, rfl, h₀, fun s' h' => absurd h' (List.not_mem_nil s')⟩
      · rw [if_neg h₀] at hi
        cases hrec : keepFromIndex target rest with
        | none => rw [hrec] at hi; exact Option.noConfusion hi
        | some j =>
            rw [hrec] at hi
            injection hi with hi
            subst hi
            obtain ⟨s, rest₂, hdrop, hhash, htake⟩ := ih j hrec
            refine ⟨s, rest₂, ?_, hhash, ?_⟩
            · exact hdrop
            · intro s' h'
              rcases List.mem_cons.mp h' with h₁ | h₁
              · subst h₁; exact h₀
              · exact htake s' h₁

theorem findSnap_mem {δ : Type} [DecidableEq δ] (snaps : List (SnapDetail δ))
    (ident : List Char) (k : SnapDetail δ)
    (h : FindSnap snaps ident = .ok k) : k ∈ sortSnaps snaps := by
  unfold FindSnap at h
  by_cases hs : sortSnaps snaps = []
  · rw [if_pos hs] at h; exact Except.noConfusion h
  · rw [if_neg hs] at h
    cases hp : parseGoIntChars ident with
    | some n =>
        simp only [hp] at h
        cases hf : (sortSnaps snaps).find? (fun s => s.id = n) with
        | none => simp only [hf] at h; exact Except.noConfusion h
        | some s =>
            simp only [hf] at h
            injection h with h
            subst h
            exact List.mem_of_find?_eq_some hf
    | none =>
        simp only [hp] at h
        unfold findByPre at h
        cases hfil : (sortSnaps snaps).filter
            (fun s => ident.isPrefixOf s.hash) with
        | nil => simp only [hfil] at h; exact Except.noConfusion h
        | cons m tl =>
            cases tl with
            | nil =>
                simp only [hfil] at h
                injection h with h
                subst h
                exact List.mem_of_mem_filter
                  (by rw [hfil]; exact List.mem_cons_self m [])
            | cons m₂ tl₂ => simp only [hfil] at h; exact Except.noConfusion h

theorem nodup_map_eq {α γ : Type} (f : α → γ) :
    ∀ (l : List α), (l.map f).Nodup →
      ∀ x y, x ∈ l → y ∈ l → f x = f y → x = y := by
  intro l
  induction l with
  | nil => intro _ x y hx; exact absurd hx (List.not_mem_nil x)
  | cons a t ih =>
      intro hn x y hx hy hf
      have hn₂ : f a ∉ t.map f ∧ (t.map f).Nodup :=
        List.nodup_cons.mp hn
      rcases List.mem_cons.mp hx with hx₁ | hx₁ <;>
        rcases List.mem_cons.mp hy with hy₁ | hy₁
      · rw [hx₁, hy₁]
      · exfalso
        apply hn₂.1
        rw [hx₁] at hf
        rw [hf]
        exact List.mem_map.mpr ⟨y, hy₁, rfl⟩
      · exfalso
        apply hn₂.1
        rw [hy₁] at hf
        rw [← hf]
        exact List.mem_map.mpr ⟨x, hx₁, rfl⟩
      · exact ih hn₂.2 x y hx₁ hy₁ hf

theorem prune_counter_eq {β δ : Type} [DecidableEq δ]
    (decTree : List Nat → Option (Tree β δ))
    (decManifest : List Nat → Option (FileManifest δ))
    (fuel : Nat) (repo : RepoState δ) (ident : List Char)
    (repo₂ : RepoState δ)
    (hp : Prune decTree decManifest fuel repo ident = .ok repo₂) :
    repo₂.counter = repo.counter := by
  simp only [Prune] at hp
  split at hp
  · exact Except.noConfusion hp
  · split at hp
    · exact Except.noConfusion hp
    · split at hp
      · injection hp with hp
        rw [← hp]
      · split at hp
        · exact Except.noConfusion hp
        · split at hp
          · injection hp with hp
            rw [← hp]
          · exact Except.noConfusion hp

end BTool

namespace BTool

/-- C6: prune liveness.  On a consistent repository — coherent stored
objects, every index entry's packfile present, distinct snapshot digests
and strictly increasing snapshot IDs — a prune that resolves the cut-off
snapshot `k` at position `i` of the ID-sorted timeline, has something older
to remove, and completes its mark phase with live set `live`, succeeds and
returns a repository whose counter is untouched, in which every object
digest transitively reachable from a kept root is marked live, keeps its
exact `(pack, offset, length)` index entry, and keeps its referenced
packfile byte-for-byte; consequently every snapshot with ID at least
`k.id` restores to the same content as before the prune, at every fuel. -/
theorem prune_liveness {β δ : Type} [DecidableEq β] [DecidableEq δ]
    (decTree : List Nat → Option (Tree β δ))
    (decManifest : List Nat → Option (FileManifest δ))
    (fuel : Nat) (repo : RepoState δ) (ident : List Char)
    (k : SnapDetail δ) (i : Nat) (live : List δ)
    (hfind : FindSnap repo.snaps ident = .ok k)
    (hidx : keepFromIndex k.hash (sortSnaps repo.snaps) = some i)
    (hprune : (sortSnaps repo.snaps).take i ≠ [])
    (hmark : markList (readOfRepo repo) decTree decManifest fuel
        (((sortSnaps repo.snaps).drop i).map SnapDetail.rootTreeHash) [] =
        some live)
    (hlive : ∀ h ∈ live, h ∈ akeys repo.index)
    (hpc : packsComplete repo = true)
    (hcoh : repoCoherent decTree decManifest repo = true)
    (hhash : ((sortSnaps repo.snaps).map SnapDetail.hash).Nodup)
    (hids : ((sortSnaps repo.snaps).map SnapDetail.id).Pairwise (fun a b => a < b)) :
    ∃ repo₂ : RepoState δ,
      Prune decTree decManifest fuel repo ident = .ok repo₂ ∧
      repo₂.counter = repo.counter ∧
      (∀ root ∈ ((sortSnaps repo.snaps).drop i).map SnapDetail.rootTreeHash,
        ∀ h, Reach (readOfRepo repo) (probeChildren decTree decManifest) root h →
          h ∈ live ∧
          alookup repo₂.index h = alookup repo.index h ∧
          (alookup repo₂.index h).isSome = true ∧
          ∀ e, alookup repo.index h = some e →
            alookup repo₂.packs e.packHash = alookup repo.packs e.packHash) ∧
      (∀ s ∈ sortSnaps repo.snaps, k.id ≤ s.id →
        ∀ f₂, restoreForestD (readOfRepo repo₂) decTree decManifest f₂
            s.rootTreeHash =
          restoreForestD (readOfRepo repo) decTree decManifest f₂
            s.rootTreeHash) := by
  have hall : (sweepPackHashes live repo.index).all
      (fun p => (alookup repo.packs p).isSome) = true :=
    packsComplete_spec repo hpc live
  have hleaf := repoCoherent_leaf decTree decManifest repo hcoh
  have hco := repoCoherent_tree decTree decManifest repo hcoh
  obtain ⟨hsub0, hroots, hclosed0⟩ :=
    ((mark_sound (readOfRepo repo) decTree decManifest hleaf fuel).2)
      (((sortSnaps repo.snaps).drop i).map SnapDetail.rootTreeHash) [] live hmark
  have hclosed : ∀ x ∈ live,
      ClosedAt (readOfRepo repo) decTree decManifest live x :=
    fun x hx => hclosed0 x hx (List.not_mem_nil x)
  refine ⟨{ index := sweepNewIndex live repo.index,
            packs := sweepPacks live repo.index repo.packs,
            snaps := repo.snaps.filter
              (fun s => decide (s ∉ (sortSnaps repo.snaps).take i)),
            counter := repo.counter }, ?_, rfl, ?_, ?_⟩
  · simp only [Prune, hfind, hidx]
    rw [if_neg hprune]
    simp only [hmark]
    rw [if_pos hall]
  · intro root hroot h hreach
    have hhlive : h ∈ live :=
      reach_mem (readOfRepo repo) decTree decManifest live hclosed root
        (hroots root hroot) h hreach
    have hkey := hlive h hhlive
    have hsome := alookup_isSome_of_mem_keys repo.index h hkey
    cases he : alookup repo.index h with
    | none => rw [he] at hsome; simp at hsome
    | some e =>
        have hpres := sweepNewIndex_mem_some live repo.index h e hhlive he
        refine ⟨hhlive, ?_, ?_, ?_⟩
        · exact hpres
        · show (alookup (sweepNewIndex live repo.index) h).isSome = true
          rw [hpres]
          rfl
        · intro e' he'
          injection he' with he'
          subst he'
          show alookup (sweepPacks live repo.index repo.packs) e.packHash =
            alookup repo.packs e.packHash
          have hpk : e.packHash ∈ sweepPackHashes live repo.index := by
            have hmem : (h, e) ∈ sweepNewIndex live repo.index :=
              alookup_mem hpres
            simp only [sweepPackHashes, List.mem_map]
            exact ⟨(h, e), hmem, rfl⟩
          exact alookup_filter_keys
            (fun x => decide (x ∈ sweepPackHashes live repo.index))
            repo.packs e.packHash (by simpa using hpk)
  · intro s hs hid f₂
    obtain ⟨s₀, rest₂, hdrop, hs₀hash, htake⟩ :=
      keepFromIndex_spec k.hash (sortSnaps repo.snaps) i hidx
    have hkmem : k ∈ sortSnaps repo.snaps := findSnap_mem repo.snaps ident k hfind
    have hs₀mem : s₀ ∈ sortSnaps repo.snaps := by
      have hmem : s₀ ∈ (sortSnaps repo.snaps).drop i := by
        rw [hdrop]
        exact List.mem_cons_self s₀ rest₂
      exact (List.drop_sublist i (sortSnaps repo.snaps)).subset hmem
    have hs₀k : s₀ = k :=
      nodup_map_eq SnapDetail.hash (sortSnaps repo.snaps) hhash s₀ k
        hs₀mem hkmem hs₀hash
    have hsdrop : s ∈ (sortSnaps repo.snaps).drop i := by
      have hsplit : s ∈ (sortSnaps repo.snaps).take i ++
          (sortSnaps repo.snaps).drop i := by
        rw [List.take_append_drop]
        exact hs
      rcases List.mem_append.mp hsplit with htk | hdk
      · exfalso
        have hids₂ : (((sortSnaps repo.snaps).take i).map SnapDetail.id ++
            ((sortSnaps repo.snaps).drop i).map SnapDetail.id).Pairwise
              (fun a b => a < b) := by
          rw [← List.map_append, List.take_append_drop]
          exact hids
        have hrel := (List.pairwise_append.mp hids₂).2.2
        have hkid : k.id ∈ ((sortSnaps repo.snaps).drop i).map SnapDetail.id := by
          rw [hdrop]
          exact List.mem_map.mpr ⟨s₀, List.mem_cons_self s₀ rest₂, by rw [hs₀k]⟩
        have hlt : s.id < k.id :=
          hrel s.id (List.mem_map.mpr ⟨s, htk, rfl⟩) k.id hkid
        exact absurd hid (not_le.mpr hlt)
      · exact hdk
    have hrootlive : s.rootTreeHash ∈ live :=
      hroots s.rootTreeHash (List.mem_map.mpr ⟨s, hsdrop, rfl⟩)
    have hre : ∀ x ∈ live,
        ReadObjectAsBuffer ⟨sweepNewIndex live repo.index, []⟩
          (sweepPacks live repo.index repo.packs) x = readOfRepo repo x :=
      fun x hx => sweep_read_preserved live repo.index repo.packs x hx
    exact restoreForest_read_eq (readOfRepo repo) _ decTree decManifest live
      hre hclosed hco f₂ s.rootTreeHash hrootlive

end BTool

namespace BTool

/-- Witness repository for the prune theorem: one chunk, one manifest and
one tree stored in a single packfile, two snapshots sharing the tree. -/
def prChunkBytes : List Nat := [9, 9]

def prManifestBytes : List Nat :=
  encManifestW { chunks := [{ hash := prChunkBytes, size := 2 }], totalSize := 2 }

def prTreeBytes : List Nat :=
  encTreeW { entries := [TreeEntry.mk 0 prManifestBytes EntryType.blob 420] }

def prPack : List Nat := prChunkBytes ++ prManifestBytes ++ prTreeBytes

def prRepo : RepoState (List Nat) :=
  { index := [(prChunkBytes, { packHash := prPack, offset := 0, length := 2 }),
      (prManifestBytes, { packHash := prPack, offset := 2, length := 7 }),
      (prTreeBytes, { packHash := prPack, offset := 9, length := 13 })],
    packs := [(prPack, prPack)],
    snaps := [{ id := 1, hash := ['a'], rootTreeHash := prTreeBytes },
      { id := 2, hash := ['b'], rootTreeHash := prTreeBytes }],
    counter := some ['7'] }

def prLive : List (List Nat) := [prChunkBytes, prManifestBytes, prTreeBytes]

theorem prune_liveness_witness :
    ∃ repo₂ : RepoState (List Nat),
      Prune decTreeW decManifestW 20 prRepo ['2'] = .ok repo₂ ∧
      repo₂.counter = prRepo.counter ∧
      (∀ root ∈ ((sortSnaps prRepo.snaps).drop 1).map SnapDetail.rootTreeHash,
        ∀ h, Reach (readOfRepo prRepo) (probeChildren decTreeW decManifestW)
            root h →
          h ∈ prLive ∧
          alookup repo₂.index h = alookup prRepo.index h ∧
          (alookup repo₂.index h).isSome = true ∧
          ∀ e, alookup prRepo.index h = some e →
            alookup repo₂.packs e.packHash = alookup prRepo.packs e.packHash) ∧
      (∀ s ∈ sortSnaps prRepo.snaps,
        ({ id := 2, hash := ['b'], rootTreeHash := prTreeBytes } :
          SnapDetail (List Nat)).id ≤ s.id →
        ∀ f₂, restoreForestD (readOfRepo repo₂) decTreeW decManifestW f₂
            s.rootTreeHash =
          restoreForestD (readOfRepo prRepo) decTreeW decManifestW f₂
            s.rootTreeHash) :=
  prune_liveness decTreeW decManifestW 20 prRepo ['2']
    { id := 2, hash := ['b'], rootTreeHash := prTreeBytes } 1 prLive
    (by decide) (by decide) (by decide) (by decide) (by decide) (by decide)
    (by decide) (by decide) (by decide)

end BTool

namespace BTool

/-- C8: snapshot ID monotonicity.  One snap run fills its manifest ID from
the durable counter and bumps the counter to its successor only afterwards;
a second run over the bumped counter therefore reads exactly the successor,
so successive snap operations yield strictly increasing IDs, and `Prune`
returns the counter of its input repository unchanged, so the property
survives prunes. -/
theorem snapID_monotone {β δ : Type} [DecidableEq δ]
    (decTree : List Nat → Option (Tree β δ))
    (decManifest : List Nat → Option (FileManifest δ))
    (c₀ : Option (List Char)) (n₁ : Int) (c₁ : Option (List Char))
    (hstep : snapIDStep c₀ = .ok (n₁, c₁))
    (hlb : 1 ≤ n₁) (hub : n₁ + 1 ≤ int64Max) :
    getNextSnapID c₀ = .ok n₁ ∧
    c₁ = some (formatInt (n₁ + 1)) ∧
    snapIDStep c₁ = .ok (n₁ + 1, some (formatInt (n₁ + 1 + 1))) ∧
    n₁ < n₁ + 1 ∧
    (∀ (fuel : Nat) (repo repo₂ : RepoState δ) (ident : List Char),
      Prune decTree decManifest fuel repo ident = .ok repo₂ →
      repo₂.counter = repo.counter) := by
  unfold snapIDStep at hstep
  cases hg : getNextSnapID c₀ with
  | error e => simp only [hg] at hstep; exact Except.noConfusion hstep
  | ok n =>
      simp only [hg, IncrementNextSnapID] at hstep
      injection hstep with hstep
      injection hstep with hn hc
      subst hn
      subst hc
      have hparse : getNextSnapID (some (formatInt (n + 1))) = .ok (n + 1) :=
        getNextSnapID_formatInt (n + 1) (by omega) hub
      refine ⟨rfl, rfl, ?_, by omega, ?_⟩
      · unfold snapIDStep IncrementNextSnapID
        simp only [hparse]
      · intro fuel repo repo₂ ident hp
        exact prune_counter_eq decTree decManifest fuel repo ident repo₂ hp

/-- Witness for `snapID_monotone`: starting from an absent counter file,
the first snap reads ID 1 and leaves "2"; the second reads ID 2. -/
theorem snapID_monotone_witness :
    getNextSnapID none = .ok 1 ∧
    some (formatInt ((1 : Int) + 1)) = some (formatInt ((1 : Int) + 1)) ∧
    snapIDStep (some (formatInt ((1 : Int) + 1))) =
      .ok (1 + 1, some (formatInt ((1 : Int) + 1 + 1))) ∧
    (1 : Int) < 1 + 1 ∧
    (∀ (fuel : Nat) (repo repo₂ : RepoState (List Nat)) (ident : List Char),
      Prune decTreeW decManifestW fuel repo ident = .ok repo₂ →
      repo₂.counter = repo.counter) :=
  snapID_monotone decTreeW decManifestW none 1 (some (formatInt ((1 : Int) + 1)))
    rfl (by decide) (by decide)

end BTool

namespace BTool

/-! ## Restore command model (source: internal/btool/commands/restore.go)

`Restore` resolves the snapshot identifier first; on a resolution failure
it returns that error before the output path is touched.  On success it
runs `os.RemoveAll` on the output path followed by `os.MkdirAll(0755)` —
whatever was at the output path is destroyed and replaced by a fresh
directory into which the tree is materialised.  The output path is
modelled as `Option (FSTree β)`: `none` when absent, otherwise the file or
directory sitting there. -/

inductive RestoreErr where
  | find (e : FindErr)
  | userInput
  | traverse
deriving DecidableEq

/-- The `Restore` command as the source implements it: resolve, then
unconditionally remove and recreate the output directory, then restore the
tree into it (a traversal failure still leaves the recreated directory
behind). -/
def RestoreCmd {β δ : Type} [DecidableEq δ]
    (decTree : List Nat → Option (Tree β δ))
    (decManifest : List Nat → Option (FileManifest δ))
    (fuel : Nat) (repo : RepoState δ) (ident : List Char)
    (out : Option (FSTree β)) : Option RestoreErr × Option (FSTree β) :=
  match FindSnap repo.snaps ident with
  | .error e => (some (.find e), out)
  | .ok k =>
      match restoreForestD (readOfRepo repo) decTree decManifest fuel
          k.rootTreeHash with
      | none => (some .traverse, some (FSTree.dir [] 493))
      | some entries => (none, some (FSTree.dir entries 493))

/-- The restore procedure as the specification words it: after resolution,
an output path that exists and is not a directory fails with a user-input
error and nothing on disk is modified; otherwise the path is removed if
present and recreated before reconstruction.  This definition follows the
claim's words and exists to be compared with `RestoreCmd`, which follows
the source. -/
def RestoreCmdClaimed {β δ : Type} [DecidableEq δ]
    (decTree : List Nat → Option (Tree β δ))
    (decManifest : List Nat → Option (FileManifest δ))
    (fuel : Nat) (repo : RepoState δ) (ident : List Char)
    (out : Option (FSTree β)) : Option RestoreErr × Option (FSTree β) :=
  match FindSnap repo.snaps ident with
  | .error e => (some (.find e), out)
  | .ok k =>
      match out with
      | some (FSTree.file _ _) => (some .userInput, out)
      | _ =>
          match restoreForestD (readOfRepo repo) decTree decManifest fuel
              k.rootTreeHash with
          | none => (some .traverse, some (FSTree.dir [] 493))
          | some entries => (none, some (FSTree.dir entries 493))

/-- An existing regular file at the output path. -/
def rsOut : Option (FSTree Nat) := some (FSTree.file [1] 420)

/-- C9: the claimed output-path validation does not exist in the code.
With a resolvable identifier and a regular file at the output path, the
procedure the specification describes stops with a user-input error and
leaves the file alone, but `Restore` as implemented never reports a
user-input error and always destroys the file: after the run the output
path holds a directory, never the original file. -/
theorem restore_output_validation_bug :
    RestoreCmdClaimed decTreeW decManifestW 3 prRepo ['1'] rsOut =
      (some RestoreErr.userInput, rsOut) ∧
    (RestoreCmd decTreeW decManifestW 3 prRepo ['1'] rsOut).1 ≠
      some RestoreErr.userInput ∧
    (RestoreCmd decTreeW decManifestW 3 prRepo ['1'] rsOut).2 ≠ rsOut := by
  have hf : FindSnap prRepo.snaps ['1'] =
      .ok { id := 1, hash := ['a'], rootTreeHash := prTreeBytes } := by decide
  refine ⟨?_, ?_, ?_⟩
  · simp only [RestoreCmdClaimed, hf, rsOut]
  · simp only [RestoreCmd, hf]
    cases hres : restoreForestD (readOfRepo prRepo) decTreeW decManifestW 3
        prTreeBytes with
    | none => simp [hres]
    | some es => simp [hres]
  · simp only [RestoreCmd, hf]
    cases hres : restoreForestD (readOfRepo prRepo) decTreeW decManifestW 3
        prTreeBytes with
    | none => simp [hres, rsOut]
    | some es => simp [hres, rsOut]

/-- C10: a resolution failure in `Restore` is returned before the output
path is removed or recreated, so the output path is left exactly as it
was. -/
theorem restore_find_error_preserves_output {β δ : Type} [DecidableEq δ]
    (decTree : List Nat → Option (Tree β δ))
    (decManifest : List Nat → Option (FileManifest δ))
    (fuel : Nat) (repo : RepoState δ) (ident : List Char)
    (out : Option (FSTree β)) (e : FindErr)
    (hf : FindSnap repo.snaps ident = .error e) :
    RestoreCmd decTree decManifest fuel repo ident out =
      (some (RestoreErr.find e), out) := by
  simp only [RestoreCmd, hf]

/-- Witness for `restore_find_error_preserves_output`: restoring from an
empty catalog fails with the no-snaps error and an existing output file is
untouched. -/
theorem restore_find_error_preserves_output_witness :
    FindSnap (RepoState.snaps
        (⟨[], [], [], none⟩ : RepoState (List Nat))) ['z'] =
      .error FindErr.noSnaps ∧
    RestoreCmd decTreeW decManifestW 3 (⟨[], [], [], none⟩ : RepoState (List Nat))
        ['z'] (some (FSTree.file [3] 420)) =
      (some (RestoreErr.find FindErr.noSnaps), some (FSTree.file [3] 420)) :=
  ⟨by decide,
    restore_find_error_preserves_output decTreeW decManifestW 3
      ⟨[], [], [], none⟩ ['z'] (some (FSTree.file [3] 420)) FindErr.noSnaps
      (by decide)⟩

end BTool
